import Mathlib

/-!
Verification development for the persistent blockchain index of the aionr
repository (core/src/blockchain/blockchain.rs).

The embedding below is a shallow model of the chain-index component:

* Hashes are modelled as naturals (0 plays the role of the zero hash), block
  difficulties and total difficulties as naturals, and a 2048-bit log bloom as
  a natural-number bitmask (bitwise or is `Nat.lor`).
* The header and body columns are modelled jointly by one map from a block
  hash to the decoded `Block` record; the block compressor is lossless and
  deterministic, so storing decoded blocks is faithful.
* The read paths of the source (`read_with_cache` over the live cache plus the
  backing column) are modelled by a single merged map per category; pending
  overlays and the write batch are kept separate, mirroring the two-phase
  commit of the source.
* Hash maps that the source builds by `collect`/`insert` (later binding wins)
  are modelled as association lists together with an explicit canonicalisation
  (`canonize`), and the live maps as functions.
-/

abbrev Hash := Nat

abbrev Bloom := Nat

/-- Familial record of a block (blockchain/extras.rs `BlockDetails`):
number, cumulative difficulty, parent hash and the list of known children. -/
structure BlockDetails where
  number : Nat
  total_difficulty : Nat
  parent : Hash
  children : List Hash
deriving DecidableEq, Repr

/-- Canonical location of a transaction (blockchain/extras.rs
`TransactionAddress`): containing block hash and index inside the block. -/
structure TransactionAddress where
  block_hash : Hash
  index : Nat
deriving DecidableEq, Repr

/-- Decoded view of the raw block bytes: the header fields the chain index
reads (`HeaderView`) plus the ordered list of transaction hashes of the body. -/
structure Block where
  hash : Hash
  number : Nat
  parent_hash : Hash
  difficulty : Nat
  timestamp : Nat
  log_bloom : Bloom
  transactions : List Hash
deriving DecidableEq, Repr

/-- Receipt of one transaction; the chain index only ever inspects its list
of logs (a log entry is opaque and modelled as a natural). -/
structure Receipt where
  logs : List Nat
deriving DecidableEq, Repr

/-- In-memory record of the best block (blockchain/best_block.rs). -/
structure BestBlock where
  hash : Hash
  number : Nat
  total_difficulty : Nat
  timestamp : Nat
  block : Block
deriving DecidableEq, Repr

/-- Best block of the gap-preceding ancient prefix. -/
structure BestAncientBlock where
  hash : Hash
  number : Nat
deriving DecidableEq, Repr

/-- Reorg data carried by a `BranchBecomingCanonChain` placement. -/
structure BranchBecomingCanonChainData where
  ancestor : Hash
  enacted : List Hash
  retracted : List Hash
deriving DecidableEq, Repr

/-- Placement outcome of an inserted block (blockchain/block_info.rs). -/
inductive BlockLocation where
  | canonChain : BlockLocation
  | branch : BlockLocation
  | branchBecomingCanonChain : BranchBecomingCanonChainData → BlockLocation
deriving DecidableEq, Repr

/-- Information about an inserted block that drives the extras updates. -/
structure BlockInfo where
  hash : Hash
  number : Nat
  total_difficulty : Nat
  location : BlockLocation
deriving DecidableEq, Repr

/-- Route between two blocks in the familial tree (types/tree_route.rs). -/
structure TreeRoute where
  blocks : List Hash
  ancestor : Hash
  index : Nat
deriving DecidableEq, Repr

/-- Modelled from the spec: the import route returned by `insert_block`
(blockchain/import_route.rs is not part of the sources at hand; section 4.5.5
of the specification and the expectations of `test_small_fork` pin it down). -/
structure ImportRoute where
  enacted : List Hash
  retracted : List Hash
  omitted : List Hash
deriving DecidableEq, Repr

/-- Modelled from the spec: the empty import route (`ImportRoute::none`). -/
def ImportRoute.emptyRoute : ImportRoute :=
  { enacted := [], retracted := [], omitted := [] }

/-- Modelled from the spec: `ImportRoute::from(BlockInfo)` — a `CanonChain`
block enacts itself, a `Branch` block enacts nothing, and a reorg enacts the
route's enacted blocks followed by the block itself while retracting the
route's retracted blocks; `omitted` is never populated. -/
def ImportRoute.fromInfo (info : BlockInfo) : ImportRoute :=
  match info.location with
  | .canonChain => { enacted := [info.hash], retracted := [], omitted := [] }
  | .branch => ImportRoute.emptyRoute
  | .branchBecomingCanonChain d =>
      { enacted := d.enacted ++ [info.hash], retracted := d.retracted, omitted := [] }

/-! Association-list helpers.  The source stages updates in `HashMap`s; we
model a hash map as an association list whose later bindings win, and
`canonize` computes the canonical one-binding-per-key form (the fold mirrors
repeated `HashMap::insert`). -/

/-- Lookup of the first binding of a key. -/
def alookup {K V : Type} [DecidableEq K] (l : List (K × V)) (k : K) : Option V :=
  (l.find? (fun q => q.1 = k)).map (fun q => q.2)

/-- Lookup of the last binding of a key (the binding a `HashMap` built by
iterated insertion would hold). -/
def alookupLast {K V : Type} [DecidableEq K] (l : List (K × V)) (k : K) : Option V :=
  alookup l.reverse k

/-- Insert a binding, replacing any previous binding of the key. -/
def insertA {K V : Type} [DecidableEq K] (l : List (K × V)) (k : K) (v : V) : List (K × V) :=
  l.filter (fun q => q.1 ≠ k) ++ [(k, v)]

/-- Canonical form of an association list: one binding per key, later
bindings winning, mirroring collection into a `HashMap`. -/
def canonize {K V : Type} [DecidableEq K] (l : List (K × V)) : List (K × V) :=
  l.foldl (fun acc q => insertA acc q.1 q.2) []

/-- Extend a canonical association list with the bindings of another list
(`HashMap::extend`). -/
def extendC {K V : Type} [DecidableEq K] (l : List (K × V)) (new : List (K × V)) : List (K × V) :=
  new.foldl (fun acc q => insertA acc q.1 q.2) l

/-- Merge an association list of updates over a function-backed map. -/
def overrideFn {K V : Type} [DecidableEq K] (f : K → Option V) (l : List (K × V)) : K → Option V :=
  fun k => match alookupLast l k with
    | some v => some v
    | none => f k

/-! The tree-route walk of `BlockChain::tree_route` (blockchain.rs lines
781-825).  The two leveling loops and the lockstep loop are modelled with an
explicit fuel parameter; the source diverges (or panics) on a malformed
details map, which the model renders as `none` once the fuel is exhausted. -/

/-- One leveling loop of `tree_route`: while the current details' number
exceeds `target`, push the current hash and step to the parent. -/
def treeRouteLevel (det : Hash → Option BlockDetails) :
    Nat → List Hash → Hash → BlockDetails → Nat → Option (List Hash × Hash × BlockDetails)
  | 0, _, _, _, _ => none
  | fuel + 1, branch, cur, cd, target =>
    if target < cd.number then
      match det cd.parent with
      | none => none
      | some pd => treeRouteLevel det fuel (branch ++ [cur]) cd.parent pd target
    else some (branch, cur, cd)

/-- Lockstep loop of `tree_route`: while the two cursors differ, push both
and step both to their parents. -/
def treeRouteJoin (det : Hash → Option BlockDetails) :
    Nat → List Hash → List Hash → Hash → BlockDetails → Hash → BlockDetails → Option TreeRoute
  | 0, _, _, _, _, _, _ => none
  | fuel + 1, fb, tb, cf, fd, ct, td =>
    if cf ≠ ct then
      match det fd.parent, det td.parent with
      | some fd2, some td2 =>
          treeRouteJoin det fuel (fb ++ [cf]) (tb ++ [ct]) fd.parent fd2 td.parent td2
      | _, _ => none
    else
      some { blocks := fb ++ tb.reverse, ancestor := cf, index := fb.length }

/-- Tree route between `f` and `t` (`BlockChain::tree_route`): level the two
cursors to a common height, then walk in lockstep to the shared parent.  The
`assert_eq!` of the source on the levelled numbers is modelled as a failure. -/
def tree_route (det : Hash → Option BlockDetails) (fuel : Nat) (f t : Hash) :
    Option TreeRoute :=
  match det f, det t with
  | some fd, some td =>
    match treeRouteLevel det fuel [] f fd td.number with
    | none => none
    | some (fb, cf, fd') =>
      match treeRouteLevel det fuel [] t td fd'.number with
      | none => none
      | some (tb, ct, td') =>
        if fd'.number = td'.number then treeRouteJoin det fuel fb tb cf fd' ct td'
        else none
  | _, _ => none

/-! Bloom index model.  The hierarchy itself lives in the external
`bloomchain` crate, which is not among the sources at hand; the operations
are modelled from the specification (§4.3): 3 levels, 16 elements per index,
a block at number `n` contributes to `(0, n/16)` slot `n % 16` and its
or-aggregate propagates to `(1, n/256)` and `(2, n/4096)`; `replace` resets a
number range and lays the supplied blooms out from the range start (inserted
data may exceed the reset range), rebuilding every touched group so that each
upper-level bloom is the bitwise or of the blooms it covers. -/

abbrev GroupPosition := Nat × Nat

abbrev BloomGroup := List Bloom

/-- Stored group at a position, an all-zero group when absent. -/
def groupAt (db : GroupPosition → Option BloomGroup) (p : GroupPosition) : BloomGroup :=
  (db p).getD (List.replicate 16 0)

/-- Or a bloom into one slot of a group. -/
def accrueAt (g : BloomGroup) (slot : Nat) (bloom : Bloom) : BloomGroup :=
  g.set slot (Nat.lor (g.getD slot 0) bloom)

/-- Slot-wise or of two groups (`accrue_bloom_group`). -/
def orGroup (g₁ g₂ : BloomGroup) : BloomGroup :=
  g₂.zipWith (fun b a => Nat.lor a b) g₁

/-- Modelled from the spec: the `insert` of the bloom hierarchy — the bloom
of the block at number `n` is accrued into `(0, n/16)` slot `n % 16`, into
`(1, n/256)` slot `(n/16) % 16` and into `(2, n/4096)` slot `(n/256) % 16`. -/
def bloomInsert (db : GroupPosition → Option BloomGroup) (n : Nat) (bloom : Bloom) :
    List (GroupPosition × BloomGroup) :=
  [ ((0, n / 16), accrueAt (groupAt db (0, n / 16)) (n % 16) bloom),
    ((1, n / 256), accrueAt (groupAt db (1, n / 256)) ((n / 16) % 16) bloom),
    ((2, n / 4096), accrueAt (groupAt db (2, n / 4096)) ((n / 256) % 16) bloom) ]

/-- Level-0 bloom of number `n` currently stored. -/
def level0At (db : GroupPosition → Option BloomGroup) (n : Nat) : Bloom :=
  (groupAt db (0, n / 16)).getD (n % 16) 0

/-- Level-0 bloom of number `n` after a replace of the half-open range
`[start, stop)` with `blooms` laid out from `start`. -/
def newL0 (db : GroupPosition → Option BloomGroup) (start stop : Nat)
    (blooms : List Bloom) (n : Nat) : Bloom :=
  if start ≤ n ∧ n < start + blooms.length then blooms.getD (n - start) 0
  else if start ≤ n ∧ n < stop then 0
  else level0At db n

/-- Bitwise or over the blooms of the numbers `[a, a + len)`. -/
def orRange (f : Nat → Bloom) (a len : Nat) : Bloom :=
  ((List.range' a len).map f).foldl Nat.lor 0

/-- Modelled from the spec: `replace(range, blooms)` of the bloom hierarchy —
recompute from scratch every group touched by resetting the half-open range
`[start, stop)` or by laying the supplied blooms out from `start`, discarding
the range's previous contents and keeping the level invariant (each
upper-level bloom is the or of the blooms it covers). -/
def bloomReplace (db : GroupPosition → Option BloomGroup) (start stop : Nat)
    (blooms : List Bloom) : List (GroupPosition × BloomGroup) :=
  let stopEff := max stop (start + blooms.length)
  if start < stopEff then
    let f := newL0 db start stop blooms
    let lo0 := start / 16
    let hi0 := (stopEff - 1) / 16
    let l0 := (List.range' lo0 (hi0 - lo0 + 1)).map fun idx =>
      (((0, idx) : GroupPosition), (List.range 16).map fun k => f (idx * 16 + k))
    let lo1 := start / 256
    let hi1 := (stopEff - 1) / 256
    let l1 := (List.range' lo1 (hi1 - lo1 + 1)).map fun idx =>
      (((1, idx) : GroupPosition), (List.range 16).map fun k => orRange f ((idx * 16 + k) * 16) 16)
    let lo2 := start / 4096
    let hi2 := (stopEff - 1) / 4096
    let l2 := (List.range' lo2 (hi2 - lo2 + 1)).map fun idx =>
      (((2, idx) : GroupPosition), (List.range 16).map fun k => orRange f ((idx * 16 + k) * 256) 256)
    l0 ++ l1 ++ l2
  else []

/-! Chain state.  The live read paths of the source (per-category cache plus
backing column, read through `read_with_cache`) are modelled by one merged
map per category; `best` and `bestAncient` are the in-memory records. -/

/-- Merged live state of the chain index. -/
structure ChainState where
  blocks : Hash → Option Block
  details : Hash → Option BlockDetails
  hashes : Nat → Option Hash
  txAddrs : Hash → Option TransactionAddress
  receipts : Hash → Option (List Receipt)
  blooms : GroupPosition → Option BloomGroup
  best : BestBlock
  bestAncient : Option BestAncientBlock

/-- Pending overlays staged by `prepare_update` and drained by `commit`. -/
structure Pending where
  best : Option BestBlock
  hashes : List (Nat × Hash)
  details : List (Hash × BlockDetails)
  txAddrs : List (Hash × Option TransactionAddress)

/-- Write batch handed to the key/value store.  Lists accumulate the puts in
order; a `none` transaction-address value is a delete; `best` and `ancient`
record the last write to the corresponding extras keys. -/
structure Batch where
  blocks : List (Hash × Block)
  details : List (Hash × BlockDetails)
  hashes : List (Nat × Hash)
  txAddrs : List (Hash × Option TransactionAddress)
  receipts : List (Hash × List Receipt)
  blooms : List (GroupPosition × BloomGroup)
  best : Option Hash
  ancient : Option (Option Hash)

/-- Returns true if the given parent block has the given child
(`BlockChain::is_known_child`). -/
def is_known_child (s : ChainState) (parent h : Hash) : Bool :=
  match s.details parent with
  | some d => d.children.contains h
  | none => false

/-- Numbered bindings `(start, h₀), (start+1, h₁), …` for a list of hashes. -/
def numberedFrom (start : Nat) : List Hash → List (Nat × Hash)
  | [] => []
  | h :: rest => (start, h) :: numberedFrom (start + 1) rest

/-- Positive transaction-address bindings of a block's transaction hashes,
indexed from `i0`. -/
def txEntriesFrom (blockHash : Hash) (i0 : Nat) :
    List Hash → List (Hash × Option TransactionAddress)
  | [] => []
  | tx :: rest =>
      (tx, some { block_hash := blockHash, index := i0 }) :: txEntriesFrom blockHash (i0 + 1) rest

/-- Block info of a newly inserted block (`BlockChain::block_info`): the new
total difficulty, the fork-choice comparison against the incumbent best block
and the resulting placement.  The `expect` on the parent details, the
`expect` on the tree route and the `assert_eq!` on the numbers are modelled
as failures. -/
def block_info (s : ChainState) (fuel : Nat) (b : Block) : Option BlockInfo :=
  match s.details b.parent_hash with
  | none => none
  | some pd =>
    let td := pd.total_difficulty + b.difficulty
    if s.best.total_difficulty < td then
      match tree_route s.details fuel s.best.hash b.parent_hash with
      | none => none
      | some route =>
        if b.number = pd.number + 1 then
          some { hash := b.hash, number := b.number, total_difficulty := td,
                 location :=
                   match route.blocks.length with
                   | 0 => BlockLocation.canonChain
                   | _ + 1 => BlockLocation.branchBecomingCanonChain
                       { ancestor := route.ancestor,
                         enacted := route.blocks.drop route.index,
                         retracted := route.blocks.take route.index } }
        else none
    else
      some { hash := b.hash, number := b.number, total_difficulty := td,
             location := BlockLocation.branch }

/-- Modified canonical number-to-hash bindings
(`BlockChain::prepare_block_hashes_update`). -/
def prepare_block_hashes_update (s : ChainState) (b : Block) (info : BlockInfo) :
    Option (List (Nat × Hash)) :=
  match info.location with
  | .branch => some []
  | .canonChain => some [(b.number, info.hash)]
  | .branchBecomingCanonChain data =>
    match s.details data.ancestor with
    | none => none
    | some ad =>
        some (numberedFrom (ad.number + 1) data.enacted ++ [(b.number, info.hash)])

/-- Modified block details (`BlockChain::prepare_block_details_update`):
the parent gains the new child, and the new block gets a fresh record. -/
def prepare_block_details_update (s : ChainState) (b : Block) (info : BlockInfo) :
    Option (List (Hash × BlockDetails)) :=
  match s.details b.parent_hash with
  | none => none
  | some pd =>
      some [(b.parent_hash, { pd with children := pd.children ++ [info.hash] }),
            (info.hash, { number := b.number, total_difficulty := info.total_difficulty,
                          parent := b.parent_hash, children := [] })]

/-- Modified block receipts (`BlockChain::prepare_block_receipts_update`). -/
def prepare_block_receipts_update (rs : List Receipt) (info : BlockInfo) :
    List (Hash × List Receipt) :=
  [(info.hash, rs)]

/-- Negative transaction-address bindings of the transactions of the blocks
`hs` (the retracted side of a reorg); fails when a body is missing. -/
def retractedEntries (s : ChainState) : List Hash → Option (List (Hash × Option TransactionAddress))
  | [] => some []
  | h :: rest =>
    match s.blocks h with
    | none => none
    | some blk =>
      match retractedEntries s rest with
      | none => none
      | some l => some (blk.transactions.map (fun tx => (tx, none)) ++ l)

/-- Positive transaction-address bindings of the transactions of the blocks
`hs` (the enacted side of a reorg); fails when a body is missing. -/
def enactedEntries (s : ChainState) : List Hash → Option (List (Hash × Option TransactionAddress))
  | [] => some []
  | h :: rest =>
    match s.blocks h with
    | none => none
    | some blk =>
      match enactedEntries s rest with
      | none => none
      | some l => some (txEntriesFrom h 0 blk.transactions ++ l)

/-- Modified transaction addresses
(`BlockChain::prepare_transaction_addresses_update`).  On a reorg the
retracted removals come first in the chained iterator, then the enacted
blocks' addresses, then the new block's own, so that a later binding of a
hash overwrites an earlier one when collected. -/
def prepare_transaction_addresses_update (s : ChainState) (b : Block) (info : BlockInfo) :
    Option (List (Hash × Option TransactionAddress)) :=
  match info.location with
  | .canonChain => some (txEntriesFrom info.hash 0 b.transactions)
  | .branchBecomingCanonChain data =>
    match retractedEntries s data.retracted, enactedEntries s data.enacted with
    | some retr, some enact => some (retr ++ enact ++ txEntriesFrom info.hash 0 b.transactions)
    | _, _ => none
  | .branch => some []

/-- Modified bloom groups (`BlockChain::prepare_block_blooms_update`): a
branch writes nothing, a canon-chain block with a non-zero bloom is inserted
at its number, and a reorg replaces the range from the ancestor's successor
up to (exclusive) the incumbent best block's number with the enacted blocks'
header blooms followed by the new block's header bloom. -/
def prepare_block_blooms_update (s : ChainState) (b : Block) (info : BlockInfo) :
    Option (List (GroupPosition × BloomGroup)) :=
  match info.location with
  | .branch => some []
  | .canonChain =>
      if b.log_bloom = 0 then some []
      else some (bloomInsert s.blooms info.number b.log_bloom)
  | .branchBecomingCanonChain data =>
    match s.details data.ancestor with
    | none => none
    | some ad =>
      match data.enacted.mapM (fun h => (s.blocks h).map (fun blk => blk.log_bloom)) with
      | none => none
      | some ebs =>
          some (bloomReplace s.blooms (ad.number + 1) s.best.number (ebs ++ [b.log_bloom]))

/-- Per-category updates assembled by an insertion (blockchain/update.rs
`ExtrasUpdate`). -/
structure ExtrasUpdate where
  info : BlockInfo
  timestamp : Nat
  block : Block
  block_hashes : List (Nat × Hash)
  block_details : List (Hash × BlockDetails)
  block_receipts : List (Hash × List Receipt)
  blocks_blooms : List (GroupPosition × BloomGroup)
  transactions_addresses : List (Hash × Option TransactionAddress)

/-- Merged bloom map after applying a canon-chain bloom update: an occupied
position accrues the update group, a vacant one receives it
(`prepare_update`, `BlockLocation::CanonChain` arm). -/
def applyBloomsCanon (db : GroupPosition → Option BloomGroup)
    (cu : List (GroupPosition × BloomGroup)) : GroupPosition → Option BloomGroup :=
  fun pos =>
    match (cu.find? (fun q => q.1 = pos)).map (fun q => q.2) with
    | some v =>
      match db pos with
      | some g => some (orGroup g v)
      | none => some v
    | none => db pos

/-- Batch writes of a canon-chain bloom update: the accrued value for an
occupied position, the update value for a vacant one. -/
def bloomBatchCanon (db : GroupPosition → Option BloomGroup)
    (cu : List (GroupPosition × BloomGroup)) : List (GroupPosition × BloomGroup) :=
  cu.map fun q =>
    match db q.1 with
    | some g => (q.1, orGroup g q.2)
    | none => q

/-- Merged bloom map after a reorg bloom update: the live bloom cache is
replaced wholesale by the update map, so a merged read sees the update value
at updated positions and the backing column elsewhere
(`prepare_update`, `BranchBecomingCanonChain` arm). -/
def applyBloomsReorg (db : GroupPosition → Option BloomGroup)
    (cu : List (GroupPosition × BloomGroup)) : GroupPosition → Option BloomGroup :=
  fun pos =>
    match (cu.find? (fun q => q.1 = pos)).map (fun q => q.2) with
    | some v => some v
    | none => db pos

/-- Stage an extras update (`BlockChain::prepare_update`): receipts and
blooms are written immediately (receipts straight to the batch with the
cache entry dropped; blooms per placement), the best block, the number-hash
map, the details and the transaction addresses go to the pending overlays
and to the batch. -/
def prepare_update (s : ChainState) (p : Pending) (batch : Batch) (u : ExtrasUpdate)
    (is_best : Bool) : ChainState × Pending × Batch :=
  let cu := canonize u.blocks_blooms
  let (blooms', bloomWrites) :=
    match u.info.location with
    | .branch => (s.blooms, [])
    | .branchBecomingCanonChain _ => (applyBloomsReorg s.blooms cu, cu)
    | .canonChain => (applyBloomsCanon s.blooms cu, bloomBatchCanon s.blooms cu)
  let setBest := is_best && !(u.info.location == BlockLocation.branch)
  let pBest := if setBest then
      some { hash := u.info.hash, number := u.info.number,
             total_difficulty := u.info.total_difficulty,
             timestamp := u.timestamp, block := u.block }
    else p.best
  let batchBest := if setBest then some u.info.hash else batch.best
  let cd := canonize u.block_details
  let ch := canonize u.block_hashes
  let ct := canonize u.transactions_addresses
  ( { s with blooms := blooms' },
    { best := pBest,
      hashes := extendC p.hashes ch,
      details := extendC p.details cd,
      txAddrs := extendC p.txAddrs ct },
    { batch with
      receipts := batch.receipts ++ canonize u.block_receipts,
      blooms := batch.blooms ++ bloomWrites,
      best := batchBest,
      details := batch.details ++ cd,
      hashes := batch.hashes ++ ch,
      txAddrs := batch.txAddrs ++ ct } )

/-- Insert a block (`BlockChain::insert_block`): a known parent-child edge
returns the empty route untouched; otherwise the compressed header and body
are written to the batch, the block info is computed and the per-category
updates are staged.  The `assert!` on an empty pending best block and the
panics of the update preparation are modelled as failures. -/
def insert_block (fuel : Nat) (s : ChainState) (p : Pending) (batch : Batch)
    (b : Block) (rs : List Receipt) :
    Option (ImportRoute × ChainState × Pending × Batch) :=
  if is_known_child s b.parent_hash b.hash then some (ImportRoute.emptyRoute, s, p, batch)
  else if p.best.isSome then none
  else
    let batch1 := { batch with blocks := batch.blocks ++ [(b.hash, b)] }
    match block_info s fuel b with
    | none => none
    | some info =>
      match prepare_block_hashes_update s b info,
            prepare_block_details_update s b info,
            prepare_block_blooms_update s b info,
            prepare_transaction_addresses_update s b info with
      | some bh, some bd, some bb, some ta =>
        let u : ExtrasUpdate :=
          { info := info, timestamp := b.timestamp, block := b,
            block_hashes := bh, block_details := bd,
            block_receipts := prepare_block_receipts_update rs info,
            blocks_blooms := bb, transactions_addresses := ta }
        let spb := prepare_update s p batch1 u true
        some (ImportRoute.fromInfo info, spb.1, spb.2.1, spb.2.2)
      | _, _, _, _ => none

/-- Drain the pending overlays into the live maps (`BlockChain::commit`):
move the pending best block, split the pending transaction addresses into
positive and negative bindings, extend the live maps with the positive ones
and with the pending hashes and details, then remove the negative keys. -/
def commit (s : ChainState) (p : Pending) : ChainState × Pending :=
  let best' := p.best.getD s.best
  let parts := p.txAddrs.partition (fun q => q.2.isNone)
  let txs' : Hash → Option TransactionAddress := fun h =>
    if (parts.1.map (fun q => q.1)).contains h then none
    else
      match alookup parts.2 h with
      | some v => v
      | none => s.txAddrs h
  ( { s with
      best := best',
      hashes := overrideFn s.hashes p.hashes,
      details := overrideFn s.details p.details,
      txAddrs := txs' },
    { best := none, hashes := [], details := [], txAddrs := [] } )

/-- Apply a flushed batch to the merged live state (the caller durably
applies the batch between `insert_block` and `commit`; later writes of a key
win). -/
def flushBatch (s : ChainState) (batch : Batch) : ChainState :=
  { s with
    blocks := overrideFn s.blocks batch.blocks,
    details := overrideFn s.details batch.details,
    hashes := overrideFn s.hashes batch.hashes,
    receipts := overrideFn s.receipts batch.receipts,
    txAddrs := fun h =>
      match alookupLast batch.txAddrs h with
      | some (some v) => some v
      | some none => none
      | none => s.txAddrs h,
    blooms := fun pos =>
      match (batch.blooms.reverse.find? (fun q => q.1 = pos)).map (fun q => q.2) with
      | some v => some v
      | none => s.blooms pos }

/-- Insert a block of the canonical chain out of order
(`BlockChain::insert_unordered_block`): a known block is a no-op returning
`false`; with known parent details the block is treated as canon chain and
the ancient marker is maintained; otherwise a stub details record is created
from the supplied parent total difficulty and `true` (disconnected) is
returned. -/
def insert_unordered_block (s : ChainState) (p : Pending) (batch : Batch)
    (b : Block) (rs : List Receipt) (parent_td : Option Nat) (is_best is_ancient : Bool) :
    Option (Bool × ChainState × Pending × Batch) :=
  if (s.details b.hash).isSome then some (false, s, p, batch)
  else if p.best.isSome then none
  else
    let batch1 := { batch with blocks := batch.blocks ++ [(b.hash, b)] }
    match s.details b.parent_hash with
    | some pd =>
      let info : BlockInfo :=
        { hash := b.hash, number := b.number,
          total_difficulty := pd.total_difficulty + b.difficulty,
          location := BlockLocation.canonChain }
      match prepare_block_hashes_update s b info,
            prepare_block_details_update s b info,
            prepare_block_blooms_update s b info,
            prepare_transaction_addresses_update s b info with
      | some bh, some bd, some bb, some ta =>
        let u : ExtrasUpdate :=
          { info := info, timestamp := b.timestamp, block := b,
            block_hashes := bh, block_details := bd,
            block_receipts := prepare_block_receipts_update rs info,
            blocks_blooms := bb, transactions_addresses := ta }
        let spb := prepare_update s p batch1 u is_best
        let s1 := spb.1
        let p1 := spb.2.1
        let batch2 := spb.2.2
        if is_ancient then
          let ancient_number := (s1.bestAncient.map (fun a => a.number)).getD 0
          if (s1.hashes (b.number + 1)).isSome then
            some (false, { s1 with bestAncient := none },
                  p1, { batch2 with ancient := some none })
          else if ancient_number < b.number then
            some (false, { s1 with bestAncient := some { hash := b.hash, number := b.number } },
                  p1, { batch2 with ancient := some (some b.hash) })
          else some (false, s1, p1, batch2)
        else some (false, s1, p1, batch2)
      | _, _, _, _ => none
    | none =>
      match parent_td with
      | none => none
      | some d =>
        let info : BlockInfo :=
          { hash := b.hash, number := b.number, total_difficulty := d + b.difficulty,
            location := BlockLocation.canonChain }
        let bd : List (Hash × BlockDetails) :=
          [(b.hash, { number := b.number, total_difficulty := info.total_difficulty,
                      parent := b.parent_hash, children := [] })]
        match prepare_block_hashes_update s b info,
              prepare_block_blooms_update s b info,
              prepare_transaction_addresses_update s b info with
        | some bh, some bb, some ta =>
          let u : ExtrasUpdate :=
            { info := info, timestamp := b.timestamp, block := b,
              block_hashes := bh, block_details := bd,
              block_receipts := prepare_block_receipts_update rs info,
              blocks_blooms := bb, transactions_addresses := ta }
          let spb := prepare_update s p batch1 u is_best
          some (true, spb.1, spb.2.1, spb.2.2)
        | _, _, _ => none

/-! Startup first-block search (`BlockChain::new`, blockchain.rs lines
670-704): when the extras key `first` is absent, binary-search the lowest
canonical number whose hash is available between the ancient number (or 0)
and the best number. -/

/-- The binary-search loop: invariant cursor pair `(l, f)` with `hash` the
hash found at `f`; probe the midpoint, move `f` down on a hit and `l` up past
a miss, and stop when `l ≥ f`. -/
def firstSearch (bh : Nat → Option Hash) (l f : Nat) (hash : Hash) : Nat × Hash :=
  if _h : l < f then
    let m := l + (f - l) / 2
    match bh m with
    | some h2 => firstSearch bh l m h2
    | none => firstSearch bh (m + 1) f hash
  else (f, hash)
termination_by f - l
decreasing_by
  · omega
  · omega

/-- First-block computation of startup when the `first` key is absent: run
the binary search from the ancient number (or 0) up to the best number, then
persist and remember the found hash unless it is the genesis hash.  The
`expect` behind `genesis_hash()` is modelled as a failure. -/
def computeFirstBlock (bh : Nat → Option Hash) (bestNumber : Nat) (bestHash : Hash)
    (ancientNumber : Option Nat) : Option (Option Hash) :=
  match bh 0 with
  | none => none
  | some genesisHash =>
    let r := firstSearch bh (ancientNumber.getD 0) bestNumber bestHash
    if r.2 = genesisHash then some none else some (some r.2)

/-! Log filtering (`BlockProvider::logs for BlockChain`, blockchain.rs lines
418-499).  Blocks are processed in descending number order; inside a block
the receipts and transaction hashes are walked in reverse while the emitted
indices are mapped back to the original positions; the flattened stream is
truncated to the limit and finally reversed. -/

/-- The localized entry record (log_entry.rs `LocalizedLogEntry`, fields as
used by the source). -/
structure LocalizedLogEntry where
  entry : Nat
  block_hash : Hash
  block_number : Nat
  transaction_hash : Hash
  transaction_index : Nat
  transaction_log_index : Nat
  log_index : Nat
deriving DecidableEq, Repr

/-- Truncation to an optional limit (`take(limit.unwrap_or(usize::MAX))`). -/
def takeLim {α : Type} (limit : Option Nat) (l : List α) : List α :=
  match limit with
  | some n => l.take n
  | none => l

/-- Reverse-order walk of one block's zipped (logs, transaction hash) pairs:
`idx` counts positions of the reversed walk, `logIdx` is the running count of
logs not yet passed; the emitted `transaction_index`, `transaction_log_index`
and `log_index` are mapped back to the original positions. -/
def perBlockRev (number : Nat) (hash : Hash) (rlen : Nat) :
    Nat → List (List Nat × Hash) → Nat → List LocalizedLogEntry
  | _, [], _ => []
  | idx, (lgs, txh) :: rest, logIdx =>
    (lgs.reverse.enum.map fun q =>
      { entry := q.2, block_hash := hash, block_number := number,
        transaction_hash := txh,
        transaction_index := rlen - idx - 1,
        transaction_log_index := lgs.length - q.1 - 1,
        log_index := logIdx - q.1 - 1 }) ++
    perBlockRev number hash rlen (idx + 1) rest (logIdx - lgs.length)

/-- Per-block log extraction: skip a block whose hash, receipts or body is
missing (the `filter_map`s of the source); fail on a receipt/transaction
count mismatch (the `assert!`); otherwise emit the reversed localized
entries, filter by the predicate and truncate to the limit. -/
def processBlock (s : ChainState) (pred : Nat → Bool) (limit : Option Nat)
    (number : Nat) : Option (List LocalizedLogEntry) :=
  match s.hashes number with
  | none => some []
  | some hash =>
    match s.receipts hash with
    | none => some []
    | some rs =>
      match s.blocks hash with
      | none => some []
      | some blk =>
        if rs.length = blk.transactions.length then
          let zipped := (rs.map (fun r => r.logs)).zip blk.transactions
          let total := (rs.map (fun r => r.logs.length)).sum
          some (takeLim limit
            ((perBlockRev number hash rs.length 0 zipped.reverse total).filter
              (fun e => pred e.entry)))
        else none

/-- Sort block numbers in descending order (`blocks.sort_by(|a, b| b.cmp(a))`). -/
def sortDesc (blocks : List Nat) : List Nat :=
  blocks.mergeSort (fun a b => decide (b ≤ a))

/-- Returns logs matching the given predicate (`BlockProvider::logs`):
process the blocks in descending number order, flatten, truncate to the
limit and reverse. -/
def logs (s : ChainState) (blocks : List Nat) (pred : Nat → Bool)
    (limit : Option Nat) : Option (List LocalizedLogEntry) :=
  match (sortDesc blocks).mapM (processBlock s pred limit) with
  | none => none
  | some lists => some (takeLim limit lists.flatten).reverse

/-! Lemmas about the association-list helpers. -/

theorem alookup_nil {K V : Type} [DecidableEq K] (k : K) :
    alookup ([] : List (K × V)) k = none := rfl

theorem alookup_cons {K V : Type} [DecidableEq K] (k k' : K) (v : V) (l : List (K × V)) :
    alookup ((k', v) :: l) k = if k' = k then some v else alookup l k := by
  by_cases h : k' = k <;> simp [alookup, List.find?_cons, h]

theorem alookup_append {K V : Type} [DecidableEq K] (l₁ l₂ : List (K × V)) (k : K) :
    alookup (l₁ ++ l₂) k =
      match alookup l₁ k with
      | some v => some v
      | none => alookup l₂ k := by
  induction l₁ with
  | nil => simp [alookup]
  | cons q t ih =>
    rcases q with ⟨k', v⟩
    by_cases h : k' = k <;> simp [alookup_cons, h, ih]

theorem alookup_mem {K V : Type} [DecidableEq K] {l : List (K × V)} {k : K} {v : V}
    (h : alookup l k = some v) : (k, v) ∈ l := by
  induction l with
  | nil => simp [alookup] at h
  | cons q t ih =>
    rcases q with ⟨k', v'⟩
    by_cases hk : k' = k
    · subst hk
      rw [alookup_cons] at h
      simp at h
      subst h
      exact List.mem_cons_self _ _
    · rw [alookup_cons] at h
      simp [hk] at h
      exact List.mem_cons_of_mem _ (ih h)

theorem alookup_eq_none {K V : Type} [DecidableEq K] {l : List (K × V)} {k : K} :
    alookup l k = none ↔ ∀ v, (k, v) ∉ l := by
  induction l with
  | nil => simp [alookup]
  | cons q t ih =>
    rcases q with ⟨k', v'⟩
    rw [alookup_cons]
    by_cases hk : k' = k
    · subst hk
      rw [if_pos rfl]
      constructor
      · intro h
        exact Option.noConfusion h
      · intro h
        exact absurd (List.mem_cons_self _ _) (h v')
    · rw [if_neg hk, ih]
      constructor
      · intro h v hv
        rcases List.mem_cons.mp hv with he | hm
        · exact hk (congrArg Prod.fst he).symm
        · exact h v hm
      · intro h v hv
        exact h v (List.mem_cons_of_mem _ hv)

theorem alookup_isSome_of_mem {K V : Type} [DecidableEq K] {l : List (K × V)} {k : K} {v : V}
    (h : (k, v) ∈ l) : (alookup l k).isSome := by
  cases hl : alookup l k with
  | some w => rfl
  | none => exact absurd h (alookup_eq_none.mp hl v)

theorem alookupLast_mem {K V : Type} [DecidableEq K] {l : List (K × V)} {k : K} {v : V}
    (h : alookupLast l k = some v) : (k, v) ∈ l := by
  have := alookup_mem h
  simpa using this

theorem alookupLast_isSome_of_mem {K V : Type} [DecidableEq K] {l : List (K × V)} {k : K} {v : V}
    (h : (k, v) ∈ l) : (alookupLast l k).isSome :=
  alookup_isSome_of_mem (l := l.reverse) (List.mem_reverse.mpr h)

theorem alookupLast_append {K V : Type} [DecidableEq K] (l₁ l₂ : List (K × V)) (k : K) :
    alookupLast (l₁ ++ l₂) k =
      match alookupLast l₂ k with
      | some v => some v
      | none => alookupLast l₁ k := by
  unfold alookupLast
  rw [List.reverse_append, alookup_append]

theorem alookup_filter_ne {K V : Type} [DecidableEq K] (l : List (K × V)) (k k' : K)
    (h : k' ≠ k) : alookup (l.filter (fun q => q.1 ≠ k)) k' = alookup l k' := by
  induction l with
  | nil => rfl
  | cons q t ih =>
    rcases q with ⟨kq, vq⟩
    by_cases hq : kq = k
    · subst hq
      have h1 : List.filter (fun q => decide (q.1 ≠ kq)) ((kq, vq) :: t)
          = List.filter (fun q => decide (q.1 ≠ kq)) t := by
        simp [List.filter_cons]
      rw [h1, ih, alookup_cons, if_neg (fun hh => h hh.symm)]
    · have h1 : List.filter (fun q => decide (q.1 ≠ k)) ((kq, vq) :: t)
          = (kq, vq) :: List.filter (fun q => decide (q.1 ≠ k)) t := by
        simp [List.filter_cons, hq]
      rw [h1, alookup_cons, alookup_cons, ih]

theorem insertA_alookup {K V : Type} [DecidableEq K] (l : List (K × V)) (k k' : K) (v : V) :
    alookup (insertA l k v) k' = if k = k' then some v else alookup l k' := by
  unfold insertA
  rw [alookup_append]
  by_cases h : k = k'
  · subst h
    have hnone : alookup (l.filter (fun q => q.1 ≠ k)) k = none := by
      rw [alookup_eq_none]
      intro w hw
      have hp := List.of_mem_filter hw
      simp at hp
    rw [hnone]
    simp [alookup_cons]
  · rw [alookup_filter_ne l k k' (fun hh => h hh.symm)]
    cases hl : alookup l k' <;> simp [alookup_cons, h, alookup]

theorem canonize_append_single {K V : Type} [DecidableEq K] (l : List (K × V)) (q : K × V) :
    canonize (l ++ [q]) = insertA (canonize l) q.1 q.2 := by
  unfold canonize
  rw [List.foldl_append]
  rfl

theorem canonize_alookup {K V : Type} [DecidableEq K] (l : List (K × V)) (k : K) :
    alookup (canonize l) k = alookupLast l k := by
  induction l using List.reverseRecOn with
  | nil => rfl
  | append_singleton t q ih =>
    rcases q with ⟨kq, vq⟩
    rw [canonize_append_single, insertA_alookup, alookupLast_append]
    by_cases h : kq = k
    · subst h
      simp [alookupLast, alookup, alookup_cons]
    · simp only [h, if_false, ih]
      have : alookupLast [(kq, vq)] k = none := by
        simp [alookupLast, alookup, List.find?, h]
      rw [this]

theorem keysNodup_insertA {K V : Type} [DecidableEq K] (l : List (K × V)) (k : K) (v : V)
    (h : (l.map Prod.fst).Nodup) : ((insertA l k v).map Prod.fst).Nodup := by
  unfold insertA
  rw [List.map_append, List.nodup_append]
  refine ⟨(List.Sublist.map Prod.fst (List.filter_sublist l)).nodup h, by simp, ?_⟩
  intro a ha
  simp only [List.mem_map] at ha
  rcases ha with ⟨q, hq, rfl⟩
  have := List.of_mem_filter hq
  simp only [decide_not, Bool.not_eq_true', decide_eq_false_iff_not] at this
  simpa using fun hh => this (by simpa using hh)

theorem canonize_keysNodup {K V : Type} [DecidableEq K] (l : List (K × V)) :
    ((canonize l).map Prod.fst).Nodup := by
  induction l using List.reverseRecOn with
  | nil => simp [canonize]
  | append_singleton t q ih =>
    rw [canonize_append_single]
    exact keysNodup_insertA _ _ _ ih

theorem alookup_of_mem_nodup {K V : Type} [DecidableEq K] {l : List (K × V)} {k : K} {v : V}
    (hnd : (l.map Prod.fst).Nodup) (hm : (k, v) ∈ l) : alookup l k = some v := by
  induction l with
  | nil => simp at hm
  | cons q t ih =>
    rcases q with ⟨kq, vq⟩
    simp only [List.map_cons, List.nodup_cons] at hnd
    rcases List.mem_cons.mp hm with h | h
    · rcases Prod.mk.injEq .. ▸ h with ⟨rfl, rfl⟩
      simp [alookup_cons]
    · have hk : kq ≠ k := by
        intro hkk
        subst hkk
        exact hnd.1 (List.mem_map.mpr ⟨(kq, v), h, rfl⟩)
      rw [alookup_cons, if_neg hk]
      exact ih hnd.2 h

theorem mem_canonize {K V : Type} [DecidableEq K] {l : List (K × V)} {k : K} {v : V}
    (hm : (k, v) ∈ canonize l) : alookupLast l k = some v := by
  rw [← canonize_alookup]
  exact alookup_of_mem_nodup (canonize_keysNodup l) hm

/-! Shared concrete states used by the witnesses below. -/

/-- Example genesis block. -/
def exG : Block :=
  { hash := 100, number := 0, parent_hash := 0, difficulty := 1, timestamp := 5,
    log_bloom := 0, transactions := [] }

/-- Example state holding only the genesis block. -/
def exS0 : ChainState :=
  { blocks := fun h => if h = 100 then some exG else none,
    details := fun h => if h = 100 then some ⟨0, 1, 0, []⟩ else none,
    hashes := fun n => if n = 0 then some 100 else none,
    txAddrs := fun _ => none,
    receipts := fun _ => none,
    blooms := fun _ => none,
    best := { hash := 100, number := 0, total_difficulty := 1, timestamp := 5, block := exG },
    bestAncient := none }

/-- Empty pending overlays. -/
def exP0 : Pending := { best := none, hashes := [], details := [], txAddrs := [] }

/-- Empty batch. -/
def exBatch0 : Batch :=
  { blocks := [], details := [], hashes := [], txAddrs := [], receipts := [], blooms := [],
    best := none, ancient := none }

/-- Claim C4: if `insert_block` is called with a block that is already a
known child of its parent, it returns an import route with empty enacted,
retracted and omitted lists and writes nothing to the batch, the pending
overlays or the live caches. -/
theorem insert_block_known_child_noop (fuel : Nat) (s : ChainState) (p : Pending)
    (batch : Batch) (b : Block) (rs : List Receipt)
    (h : is_known_child s b.parent_hash b.hash = true) :
    insert_block fuel s p batch b rs =
      some ({ enacted := [], retracted := [], omitted := [] }, s, p, batch) := by
  unfold insert_block
  rw [if_pos h]
  rfl

/-- Witness for C4 at a concrete duplicate insertion. -/
theorem insert_block_known_child_noop_witness :
    is_known_child
        { exS0 with details := fun h => if h = 100 then some ⟨0, 1, 0, [101]⟩ else none }
        100 101 = true ∧
      insert_block 9
        { exS0 with details := fun h => if h = 100 then some ⟨0, 1, 0, [101]⟩ else none }
        exP0 exBatch0
        { hash := 101, number := 1, parent_hash := 100, difficulty := 2, timestamp := 6,
          log_bloom := 0, transactions := [] } [] =
      some ({ enacted := [], retracted := [], omitted := [] },
        { exS0 with details := fun h => if h = 100 then some ⟨0, 1, 0, [101]⟩ else none },
        exP0, exBatch0) :=
  ⟨by decide, insert_block_known_child_noop 9 _ exP0 exBatch0 _ [] (by decide)⟩

/-- Claim C10: if `insert_unordered_block` is called with a block whose hash
is already known (its block-details record exists), it returns `false` and
leaves the batch, the pending overlays, the best-ancient-block state and all
live caches unchanged. -/
theorem insert_unordered_known_noop (s : ChainState) (p : Pending) (batch : Batch)
    (b : Block) (rs : List Receipt) (parent_td : Option Nat) (is_best is_ancient : Bool)
    (h : (s.details b.hash).isSome = true) :
    insert_unordered_block s p batch b rs parent_td is_best is_ancient =
      some (false, s, p, batch) := by
  unfold insert_unordered_block
  rw [if_pos h]

/-- Witness for C10 at a concrete known block. -/
theorem insert_unordered_known_noop_witness :
    (exS0.details 100).isSome = true ∧
      insert_unordered_block exS0 exP0 exBatch0
        { hash := 100, number := 0, parent_hash := 0, difficulty := 1, timestamp := 5,
          log_bloom := 0, transactions := [] } [] (some 3) true true =
      some (false, exS0, exP0, exBatch0) :=
  ⟨by decide, insert_unordered_known_noop exS0 exP0 exBatch0 _ [] (some 3) true true (by decide)⟩

/-! Helper facts about `block_info` and `insert_block`. -/

theorem block_info_fields (s : ChainState) (fuel : Nat) (b : Block) (info : BlockInfo)
    (h : block_info s fuel b = some info) : info.hash = b.hash ∧ info.number = b.number := by
  unfold block_info at h
  cases hd : s.details b.parent_hash with
  | none =>
    rw [hd] at h
    exact Option.noConfusion h
  | some pd =>
    rw [hd] at h
    simp only at h
    by_cases hlt : s.best.total_difficulty < pd.total_difficulty + b.difficulty
    · rw [if_pos hlt] at h
      cases hr : tree_route s.details fuel s.best.hash b.parent_hash with
      | none =>
        rw [hr] at h
        exact Option.noConfusion h
      | some route =>
        rw [hr] at h
        dsimp only at h
        by_cases hn : b.number = pd.number + 1
        · rw [if_pos hn] at h
          obtain rfl := Option.some.inj h
          exact ⟨rfl, rfl⟩
        · rw [if_neg hn] at h
          exact Option.noConfusion h
    · rw [if_neg hlt] at h
      obtain rfl := Option.some.inj h
      exact ⟨rfl, rfl⟩

theorem block_info_parent_some (s : ChainState) (fuel : Nat) (b : Block) (info : BlockInfo)
    (h : block_info s fuel b = some info) : ∃ pd, s.details b.parent_hash = some pd := by
  unfold block_info at h
  cases hd : s.details b.parent_hash with
  | none =>
    rw [hd] at h
    exact Option.noConfusion h
  | some pd => exact ⟨pd, rfl⟩

theorem insert_block_eq (fuel : Nat) (s : ChainState) (p : Pending) (batch : Batch)
    (b : Block) (rs : List Receipt) (info : BlockInfo) (bh : List (Nat × Hash))
    (bd : List (Hash × BlockDetails)) (bb : List (GroupPosition × BloomGroup))
    (ta : List (Hash × Option TransactionAddress))
    (hkc : is_known_child s b.parent_hash b.hash = false)
    (hpb : p.best = none)
    (hinfo : block_info s fuel b = some info)
    (hbh : prepare_block_hashes_update s b info = some bh)
    (hbd : prepare_block_details_update s b info = some bd)
    (hbb : prepare_block_blooms_update s b info = some bb)
    (hta : prepare_transaction_addresses_update s b info = some ta) :
    insert_block fuel s p batch b rs =
      some (ImportRoute.fromInfo info,
        prepare_update s p { batch with blocks := batch.blocks ++ [(b.hash, b)] }
          { info := info, timestamp := b.timestamp, block := b,
            block_hashes := bh, block_details := bd,
            block_receipts := [(info.hash, rs)],
            blocks_blooms := bb, transactions_addresses := ta } true) := by
  unfold insert_block
  rw [if_neg (by simp [hkc])]
  rw [if_neg (by simp [hpb])]
  rw [hinfo]
  simp only [hbh, hbd, hbb, hta]
  rfl

theorem canonize_pair {K V : Type} [DecidableEq K] (k1 k2 : K) (v1 v2 : V) (h : k1 ≠ k2) :
    canonize [(k1, v1), (k2, v2)] = [(k1, v1), (k2, v2)] := by
  simp [canonize, insertA, List.filter, h]

/-- Claim C8: a block inserted with placement `Branch` writes no canonical
number-to-hash binding, no transaction address and no bloom group anywhere
(live state, pending overlays, batch); only the header and body, the block
details (the parent's updated children list and the new record) and the
receipts are written, and the best-block pointer is untouched. -/
theorem insert_block_branch_frame (fuel : Nat) (s : ChainState) (p : Pending) (batch : Batch)
    (b : Block) (rs : List Receipt) (r : ImportRoute) (s1 : ChainState) (p1 : Pending)
    (batch1 : Batch) (info : BlockInfo) (pd : BlockDetails)
    (hkc : is_known_child s b.parent_hash b.hash = false)
    (hins : insert_block fuel s p batch b rs = some (r, s1, p1, batch1))
    (hinfo : block_info s fuel b = some info)
    (hloc : info.location = BlockLocation.branch)
    (hpd : s.details b.parent_hash = some pd)
    (hneq : b.parent_hash ≠ b.hash) :
    s1.hashes = s.hashes ∧ s1.txAddrs = s.txAddrs ∧ s1.blooms = s.blooms ∧
    s1.blocks = s.blocks ∧ s1.receipts = s.receipts ∧ s1.best = s.best ∧
    s1.details = s.details ∧
    p1.hashes = p.hashes ∧ p1.txAddrs = p.txAddrs ∧ p1.best = p.best ∧
    batch1.hashes = batch.hashes ∧ batch1.txAddrs = batch.txAddrs ∧
    batch1.blooms = batch.blooms ∧ batch1.best = batch.best ∧
    batch1.ancient = batch.ancient ∧
    batch1.blocks = batch.blocks ++ [(b.hash, b)] ∧
    batch1.receipts = batch.receipts ++ [(b.hash, rs)] ∧
    batch1.details = batch.details ++
      [(b.parent_hash, { pd with children := pd.children ++ [b.hash] }),
       (b.hash, { number := b.number, total_difficulty := info.total_difficulty,
                  parent := b.parent_hash, children := [] })] := by
  obtain ⟨hih, hin⟩ := block_info_fields s fuel b info hinfo
  have hpb : p.best = none := by
    unfold insert_block at hins
    rw [if_neg (by simp [hkc])] at hins
    by_cases h : p.best.isSome
    · rw [if_pos (by simp [h])] at hins
      exact Option.noConfusion hins
    · exact Option.not_isSome_iff_eq_none.mp h
  have hbh : prepare_block_hashes_update s b info = some [] := by
    unfold prepare_block_hashes_update
    rw [hloc]
  have hbd : prepare_block_details_update s b info = some
      [(b.parent_hash, { pd with children := pd.children ++ [info.hash] }),
       (info.hash, { number := b.number, total_difficulty := info.total_difficulty,
                     parent := b.parent_hash, children := [] })] := by
    unfold prepare_block_details_update
    rw [hpd]
  have hbb : prepare_block_blooms_update s b info = some [] := by
    unfold prepare_block_blooms_update
    rw [hloc]
  have hta : prepare_transaction_addresses_update s b info = some [] := by
    unfold prepare_transaction_addresses_update
    rw [hloc]
  rw [insert_block_eq fuel s p batch b rs info _ _ _ _ hkc hpb hinfo hbh hbd hbb hta] at hins
  have hinj := Option.some.inj hins
  have hpu := congrArg Prod.snd hinj
  have hcd : canonize
      [(b.parent_hash, { pd with children := pd.children ++ [info.hash] }),
       (info.hash, { number := b.number, total_difficulty := info.total_difficulty,
                     parent := b.parent_hash, children := [] })] =
      [(b.parent_hash, { pd with children := pd.children ++ [info.hash] }),
       (info.hash, { number := b.number, total_difficulty := info.total_difficulty,
                     parent := b.parent_hash, children := [] })] :=
    canonize_pair _ _ _ _ (by rw [hih]; exact hneq)
  have hpu2 : prepare_update s p { batch with blocks := batch.blocks ++ [(b.hash, b)] }
      { info := info, timestamp := b.timestamp, block := b, block_hashes := [],
        block_details :=
          [(b.parent_hash, { pd with children := pd.children ++ [info.hash] }),
           (info.hash, { number := b.number, total_difficulty := info.total_difficulty,
                         parent := b.parent_hash, children := [] })],
        block_receipts := [(info.hash, rs)], blocks_blooms := [],
        transactions_addresses := [] } true =
      (s,
       { best := p.best, hashes := p.hashes,
         details := extendC p.details
           [(b.parent_hash, { pd with children := pd.children ++ [info.hash] }),
            (info.hash, { number := b.number, total_difficulty := info.total_difficulty,
                          parent := b.parent_hash, children := [] })],
         txAddrs := p.txAddrs },
       { blocks := batch.blocks ++ [(b.hash, b)],
         details := batch.details ++
           [(b.parent_hash, { pd with children := pd.children ++ [info.hash] }),
            (info.hash, { number := b.number, total_difficulty := info.total_difficulty,
                          parent := b.parent_hash, children := [] })],
         hashes := batch.hashes, txAddrs := batch.txAddrs,
         receipts := batch.receipts ++ [(info.hash, rs)],
         blooms := batch.blooms, best := batch.best, ancient := batch.ancient }) := by
    unfold prepare_update
    dsimp only
    rw [hloc, hcd]
    simp [extendC, canonize, insertA]
  rw [hpu2] at hpu
  have hs1 : s = s1 := congrArg Prod.fst hpu
  have hp1 := congrArg (fun q => q.2.1) hpu
  have hb1 := congrArg (fun q => q.2.2) hpu
  dsimp only at hp1 hb1
  subst hs1
  rw [← hp1, ← hb1]
  rw [hih] at *
  refine ⟨rfl, rfl, rfl, rfl, rfl, rfl, rfl, rfl, rfl, rfl, rfl, rfl, rfl, rfl, rfl, rfl,
    rfl, rfl⟩

/-- Example block at number 1 extending the genesis with difficulty 10. -/
def exA : Block :=
  { hash := 101, number := 1, parent_hash := 100, difficulty := 10, timestamp := 6,
    log_bloom := 0, transactions := [] }

/-- Example state whose best block is `exA` (total difficulty 11). -/
def exS1 : ChainState :=
  { blocks := fun h => if h = 100 then some exG else if h = 101 then some exA else none,
    details := fun h =>
      if h = 100 then some ⟨0, 1, 0, [101]⟩
      else if h = 101 then some ⟨1, 11, 100, []⟩ else none,
    hashes := fun n => if n = 0 then some 100 else if n = 1 then some 101 else none,
    txAddrs := fun _ => none,
    receipts := fun _ => none,
    blooms := fun _ => none,
    best := { hash := 101, number := 1, total_difficulty := 11, timestamp := 6, block := exA },
    bestAncient := none }

/-- Example lower-difficulty competitor of `exA` (placed as a branch). -/
def exBranchBlock : Block :=
  { hash := 102, number := 1, parent_hash := 100, difficulty := 2, timestamp := 7,
    log_bloom := 0, transactions := [] }

/-- Witness for C8 at a concrete branch insertion. -/
theorem insert_block_branch_frame_witness :
    ∃ x, insert_block 9 exS1 exP0 exBatch0 exBranchBlock [] = some x ∧
      x.2.1.hashes = exS1.hashes ∧ x.2.1.txAddrs = exS1.txAddrs := by
  refine ⟨_, rfl, ?_⟩
  have h := insert_block_branch_frame 9 exS1 exP0 exBatch0 exBranchBlock [] _ _ _ _
    { hash := 102, number := 1, total_difficulty := 3, location := BlockLocation.branch }
    ⟨0, 1, 0, [101]⟩ (by decide) rfl (by decide) (by decide) (by decide) (by decide)
  exact ⟨h.1, h.2.1⟩

theorem prepare_update_fst_best (s : ChainState) (p : Pending) (batch : Batch)
    (u : ExtrasUpdate) (ib : Bool) : (prepare_update s p batch u ib).1.best = s.best := by
  rcases u with ⟨info, ts, blk, bh, bd, br, bb, ta⟩
  rcases info with ⟨ih, inum, itd, iloc⟩
  cases iloc <;> rfl

theorem prepare_update_snd_best (s : ChainState) (p : Pending) (batch : Batch)
    (u : ExtrasUpdate) (ib : Bool) :
    (prepare_update s p batch u ib).2.1.best =
      if ib && !(u.info.location == BlockLocation.branch) then
        some { hash := u.info.hash, number := u.info.number,
               total_difficulty := u.info.total_difficulty,
               timestamp := u.timestamp, block := u.block }
      else p.best := by
  rcases u with ⟨info, ts, blk, bh, bd, br, bb, ta⟩
  rcases info with ⟨ih, inum, itd, iloc⟩
  cases iloc <;> rfl

theorem block_info_location_branch_iff (s : ChainState) (fuel : Nat) (b : Block)
    (info : BlockInfo) (pd : BlockDetails)
    (hpd : s.details b.parent_hash = some pd)
    (h : block_info s fuel b = some info) :
    info.location = BlockLocation.branch ↔
      ¬ s.best.total_difficulty < pd.total_difficulty + b.difficulty := by
  unfold block_info at h
  rw [hpd] at h
  dsimp only at h
  by_cases hlt : s.best.total_difficulty < pd.total_difficulty + b.difficulty
  · rw [if_pos hlt] at h
    cases hr : tree_route s.details fuel s.best.hash b.parent_hash with
    | none =>
      rw [hr] at h
      exact Option.noConfusion h
    | some route =>
      rw [hr] at h
      dsimp only at h
      by_cases hn : b.number = pd.number + 1
      · rw [if_pos hn] at h
        obtain rfl := Option.some.inj h
        simp only [hlt, not_true, iff_false]
        cases route.blocks.length <;> simp
      · rw [if_neg hn] at h
        exact Option.noConfusion h
  · rw [if_neg hlt] at h
    obtain rfl := Option.some.inj h
    simp [hlt]

theorem block_info_tie (s : ChainState) (fuel : Nat) (b : Block) (pd : BlockDetails)
    (hpd : s.details b.parent_hash = some pd)
    (htie : ¬ s.best.total_difficulty < pd.total_difficulty + b.difficulty) :
    block_info s fuel b =
      some { hash := b.hash, number := b.number,
             total_difficulty := pd.total_difficulty + b.difficulty,
             location := BlockLocation.branch } := by
  unfold block_info
  rw [hpd]
  dsimp only
  rw [if_neg htie]

/-- Claim C1: a newly inserted block with a locally known parent becomes the
new best block if and only if its total difficulty (the parent's total
difficulty plus its header difficulty) is strictly greater than the current
best block's total difficulty; on a tie the incumbent is kept and the block
is placed as a `Branch`. -/
theorem insert_block_fork_choice (fuel : Nat) (s : ChainState) (p : Pending) (batch : Batch)
    (b : Block) (rs : List Receipt) (r : ImportRoute) (s1 : ChainState) (p1 : Pending)
    (batch1 : Batch) (pd : BlockDetails)
    (hkc : is_known_child s b.parent_hash b.hash = false)
    (hpd : s.details b.parent_hash = some pd)
    (hins : insert_block fuel s p batch b rs = some (r, s1, p1, batch1))
    (hbne : b.hash ≠ s.best.hash) :
    ((commit (flushBatch s1 batch1) p1).1.best.hash = b.hash ↔
        s.best.total_difficulty < pd.total_difficulty + b.difficulty) ∧
    (pd.total_difficulty + b.difficulty = s.best.total_difficulty →
      block_info s fuel b =
        some { hash := b.hash, number := b.number,
               total_difficulty := pd.total_difficulty + b.difficulty,
               location := BlockLocation.branch } ∧
      (commit (flushBatch s1 batch1) p1).1.best = s.best) := by
  unfold insert_block at hins
  rw [if_neg (by simp [hkc])] at hins
  have hpb : p.best = none := by
    by_cases h : p.best.isSome
    · rw [if_pos (by simp [h])] at hins
      exact Option.noConfusion hins
    · exact Option.not_isSome_iff_eq_none.mp h
  rw [if_neg (by simp [hpb])] at hins
  cases hinfo : block_info s fuel b with
  | none =>
    rw [hinfo] at hins
    exact Option.noConfusion hins
  | some info =>
    rw [hinfo] at hins
    dsimp only at hins
    obtain ⟨hih, hinum⟩ := block_info_fields s fuel b info hinfo
    cases hbhu : prepare_block_hashes_update s b info with
    | none => rw [hbhu] at hins; exact Option.noConfusion hins
    | some bh =>
    cases hbdu : prepare_block_details_update s b info with
    | none => rw [hbhu, hbdu] at hins; exact Option.noConfusion hins
    | some bd =>
    cases hbbu : prepare_block_blooms_update s b info with
    | none => rw [hbhu, hbdu, hbbu] at hins; exact Option.noConfusion hins
    | some bb =>
    cases htau : prepare_transaction_addresses_update s b info with
    | none => rw [hbhu, hbdu, hbbu, htau] at hins; exact Option.noConfusion hins
    | some ta =>
    rw [hbhu, hbdu, hbbu, htau] at hins
    dsimp only at hins
    have hinj := Option.some.inj hins
    have hs1 := congrArg (fun q => q.2.1.best) hinj
    have hp1 := congrArg (fun q => q.2.2.1.best) hinj
    dsimp only at hs1 hp1
    rw [prepare_update_fst_best] at hs1
    rw [prepare_update_snd_best] at hp1
    have hcommit : (commit (flushBatch s1 batch1) p1).1.best = p1.best.getD s1.best := rfl
    by_cases hlt : s.best.total_difficulty < pd.total_difficulty + b.difficulty
    · have hnb : ¬ info.location = BlockLocation.branch := by
        rw [block_info_location_branch_iff s fuel b info pd hpd hinfo]
        simp [hlt]
      have heq : (info.location == BlockLocation.branch) = false := by
        simp [hnb]
      rw [heq] at hp1
      simp only [Bool.and_true, Bool.not_false, Bool.and_self, if_pos] at hp1
      constructor
      · constructor
        · intro _
          exact hlt
        · intro _
          rw [hcommit, ← hp1]
          simp [hih]
      · intro htie
        exact absurd hlt (by simp [htie])
    · have hb : info.location = BlockLocation.branch := by
        rw [block_info_location_branch_iff s fuel b info pd hpd hinfo]
        exact hlt
      have heq : (info.location == BlockLocation.branch) = true := by
        simp [hb]
      rw [heq] at hp1
      simp only [Bool.not_true, Bool.and_false, if_neg, Bool.false_eq_true,
        not_false_eq_true] at hp1
      have hbest : (commit (flushBatch s1 batch1) p1).1.best = s.best := by
        rw [hcommit, ← hp1, hpb, ← hs1]
        rfl
      constructor
      · rw [hbest]
        constructor
        · intro hh
          exact absurd hh.symm hbne
        · intro hh
          exact absurd hh hlt
      · intro htie
        refine ⟨?_, hbest⟩
        rw [← hinfo]
        exact block_info_tie s fuel b pd hpd hlt

/-- Example block extending `exA` with difficulty 5 (new best, total 16). -/
def exNewBest : Block :=
  { hash := 103, number := 2, parent_hash := 101, difficulty := 5, timestamp := 8,
    log_bloom := 0, transactions := [] }

/-- Witness for C1 at a concrete canon-chain extension. -/
theorem insert_block_fork_choice_witness :
    ∃ x, insert_block 9 exS1 exP0 exBatch0 exNewBest [] = some x ∧
      ((commit (flushBatch x.2.1 x.2.2.2) x.2.2.1).1.best.hash = exNewBest.hash ↔
        exS1.best.total_difficulty < 11 + exNewBest.difficulty) := by
  refine ⟨_, rfl, ?_⟩
  have h := insert_block_fork_choice 9 exS1 exP0 exBatch0 exNewBest [] _ _ _ _
    ⟨1, 11, 100, []⟩ (by decide) (by decide) rfl (by decide)
  exact h.1

/-! Lemmas for the bloom model. -/

theorem groupAt_length (db : GroupPosition → Option BloomGroup)
    (hwf : ∀ pos g, db pos = some g → g.length = 16) (pos : GroupPosition) :
    (groupAt db pos).length = 16 := by
  unfold groupAt
  cases h : db pos with
  | none => simp
  | some g => simpa using hwf pos g h

theorem accrueAt_length (g : BloomGroup) (slot : Nat) (bloom : Bloom) :
    (accrueAt g slot bloom).length = g.length := by
  unfold accrueAt
  exact List.length_set g slot _

theorem accrueAt_getD_self (g : BloomGroup) (slot : Nat) (bloom : Bloom)
    (hs : slot < g.length) :
    (accrueAt g slot bloom).getD slot 0 = Nat.lor (g.getD slot 0) bloom := by
  unfold accrueAt
  rw [List.getD_eq_getElem?_getD, List.getElem?_set_self hs, List.getD_eq_getElem?_getD]
  rfl

theorem accrueAt_getD_ne (g : BloomGroup) (slot : Nat) (bloom : Bloom) (k : Nat)
    (h : slot ≠ k) : (accrueAt g slot bloom).getD k 0 = g.getD k 0 := by
  unfold accrueAt
  rw [List.getD_eq_getElem?_getD, List.getElem?_set_ne h, List.getD_eq_getElem?_getD]

theorem orGroup_getD (g h : BloomGroup) (k : Nat) (hk : k < g.length)
    (hlen : h.length = g.length) :
    (orGroup g h).getD k 0 = Nat.lor (g.getD k 0) (h.getD k 0) := by
  unfold orGroup
  rw [List.getD_eq_getElem?_getD, List.getElem?_zipWith,
    List.getElem?_eq_getElem (by omega : k < h.length),
    List.getElem?_eq_getElem hk, List.getD_eq_getElem?_getD, List.getD_eq_getElem?_getD,
    List.getElem?_eq_getElem (by omega : k < h.length), List.getElem?_eq_getElem hk]
  rfl

theorem lor_self_left (a b : Nat) : Nat.lor a (Nat.lor a b) = Nat.lor a b := by
  show a ||| (a ||| b) = a ||| b
  rw [← Nat.lor_assoc, Nat.or_self]

theorem lor_self (a : Nat) : Nat.lor a a = a := Nat.or_self a

theorem accrue_effect (db : GroupPosition → Option BloomGroup)
    (hwf : ∀ pos g, db pos = some g → g.length = 16)
    (pos : GroupPosition) (slot : Nat) (bloom : Bloom) (hs : slot < 16) :
    ((match db pos with
      | some g0 => orGroup g0 (accrueAt (groupAt db pos) slot bloom)
      | none => accrueAt (groupAt db pos) slot bloom).getD slot 0
        = Nat.lor ((groupAt db pos).getD slot 0) bloom) ∧
    (∀ k, k ≠ slot →
      (match db pos with
       | some g0 => orGroup g0 (accrueAt (groupAt db pos) slot bloom)
       | none => accrueAt (groupAt db pos) slot bloom).getD k 0
        = (groupAt db pos).getD k 0) := by
  have hlen : (groupAt db pos).length = 16 := groupAt_length db hwf pos
  cases hdb : db pos with
  | none =>
    dsimp only
    refine ⟨accrueAt_getD_self _ _ _ (by omega), ?_⟩
    intro k hk
    exact accrueAt_getD_ne _ _ _ _ (fun hh => hk hh.symm)
  | some g0 =>
    dsimp only
    have hg0 : groupAt db pos = g0 := by
      unfold groupAt
      rw [hdb]
      rfl
    have hlg0 : g0.length = 16 := hwf pos g0 hdb
    constructor
    · rw [orGroup_getD g0 _ slot (by omega) (by rw [accrueAt_length, hg0, hlg0]),
        accrueAt_getD_self _ _ _ (by omega), hg0]
      exact lor_self_left _ _
    · intro k hk
      by_cases hk16 : k < 16
      · rw [orGroup_getD g0 _ k (by omega) (by rw [accrueAt_length, hg0, hlg0]),
          accrueAt_getD_ne _ _ _ _ (fun hh => hk hh.symm), hg0]
        exact lor_self _
      · have h1 : (orGroup g0 (accrueAt (groupAt db pos) slot bloom)).getD k 0 = 0 := by
          rw [List.getD_eq_getElem?_getD, List.getElem?_eq_none]
          · rfl
          · unfold orGroup
            rw [List.length_zipWith, accrueAt_length, hg0, hlg0]
            omega
        have h2 : (groupAt db pos).getD k 0 = 0 := by
          rw [List.getD_eq_getElem?_getD, List.getElem?_eq_none (by omega)]
          rfl
        rw [h1, h2]

theorem canonize_triple {K V : Type} [DecidableEq K] (k1 k2 k3 : K) (v1 v2 v3 : V)
    (h12 : k1 ≠ k2) (h13 : k1 ≠ k3) (h23 : k2 ≠ k3) :
    canonize [(k1, v1), (k2, v2), (k3, v3)] = [(k1, v1), (k2, v2), (k3, v3)] := by
  simp [canonize, insertA, List.filter, h12, h13, h23]

theorem lor_zero (a : Nat) : Nat.lor a 0 = a := by
  show a ||| 0 = a
  simp

theorem groupAt_applyCanon {db : GroupPosition → Option BloomGroup}
    {cu : List (GroupPosition × BloomGroup)} {pos : GroupPosition} {v : BloomGroup}
    (hfind : (cu.find? (fun q => q.1 = pos)).map (fun q => q.2) = some v) :
    groupAt (applyBloomsCanon db cu) pos =
      (match db pos with | some g => orGroup g v | none => v) := by
  unfold groupAt applyBloomsCanon
  rw [hfind]
  cases db pos <;> rfl

/-- Claim C6: a block inserted with placement `CanonChain` at canonical
number `n` contributes its header log-bloom to the level-0 group at
`(0, n/16)` in slot `n % 16`, and its or-aggregate propagates to the groups
at `(1, n/256)` (slot `n/16 % 16`) and `(2, n/4096)` (slot `n/256 % 16`);
other slots of the level-0 group are untouched. -/
theorem canon_bloom_update (s : ChainState) (b : Block) (info : BlockInfo)
    (upd : List (GroupPosition × BloomGroup))
    (hwf : ∀ pos g, s.blooms pos = some g → g.length = 16)
    (hloc : info.location = BlockLocation.canonChain)
    (hupd : prepare_block_blooms_update s b info = some upd) :
    ((groupAt (applyBloomsCanon s.blooms (canonize upd)) (0, info.number / 16)).getD
        (info.number % 16) 0
      = Nat.lor ((groupAt s.blooms (0, info.number / 16)).getD (info.number % 16) 0)
          b.log_bloom) ∧
    ((groupAt (applyBloomsCanon s.blooms (canonize upd)) (1, info.number / 256)).getD
        (info.number / 16 % 16) 0
      = Nat.lor ((groupAt s.blooms (1, info.number / 256)).getD (info.number / 16 % 16) 0)
          b.log_bloom) ∧
    ((groupAt (applyBloomsCanon s.blooms (canonize upd)) (2, info.number / 4096)).getD
        (info.number / 256 % 16) 0
      = Nat.lor ((groupAt s.blooms (2, info.number / 4096)).getD (info.number / 256 % 16) 0)
          b.log_bloom) ∧
    (∀ k, k ≠ info.number % 16 →
      (groupAt (applyBloomsCanon s.blooms (canonize upd)) (0, info.number / 16)).getD k 0
        = (groupAt s.blooms (0, info.number / 16)).getD k 0) := by
  unfold prepare_block_blooms_update at hupd
  rw [hloc] at hupd
  dsimp only at hupd
  by_cases hz : b.log_bloom = 0
  · rw [if_pos hz] at hupd
    obtain rfl := Option.some.inj hupd
    have happ : ∀ pos, groupAt (applyBloomsCanon s.blooms (canonize [])) pos
        = groupAt s.blooms pos := fun pos => rfl
    rw [hz]
    refine ⟨?_, ?_, ?_, ?_⟩
    · rw [happ, lor_zero]
    · rw [happ, lor_zero]
    · rw [happ, lor_zero]
    · intro k _
      rw [happ]
  · rw [if_neg hz] at hupd
    obtain rfl := Option.some.inj hupd
    have hc : canonize (bloomInsert s.blooms info.number b.log_bloom)
        = bloomInsert s.blooms info.number b.log_bloom := by
      unfold bloomInsert
      exact canonize_triple _ _ _ _ _ _ (by simp) (by simp) (by simp)
    rw [hc]
    have hfind0 : ((bloomInsert s.blooms info.number b.log_bloom).find?
        (fun q => q.1 = (((0 : Nat), info.number / 16) : GroupPosition))).map (fun q => q.2)
        = some (accrueAt (groupAt s.blooms (0, info.number / 16)) (info.number % 16)
            b.log_bloom) := by
      simp [bloomInsert, List.find?]
    have hfind1 : ((bloomInsert s.blooms info.number b.log_bloom).find?
        (fun q => q.1 = (((1 : Nat), info.number / 256) : GroupPosition))).map (fun q => q.2)
        = some (accrueAt (groupAt s.blooms (1, info.number / 256)) (info.number / 16 % 16)
            b.log_bloom) := by
      simp [bloomInsert, List.find?]
    have hfind2 : ((bloomInsert s.blooms info.number b.log_bloom).find?
        (fun q => q.1 = (((2 : Nat), info.number / 4096) : GroupPosition))).map (fun q => q.2)
        = some (accrueAt (groupAt s.blooms (2, info.number / 4096)) (info.number / 256 % 16)
            b.log_bloom) := by
      simp [bloomInsert, List.find?]
    have h0 := accrue_effect s.blooms hwf (0, info.number / 16) (info.number % 16)
      b.log_bloom (Nat.mod_lt _ (by norm_num))
    have h1 := accrue_effect s.blooms hwf (1, info.number / 256) (info.number / 16 % 16)
      b.log_bloom (Nat.mod_lt _ (by norm_num))
    have h2 := accrue_effect s.blooms hwf (2, info.number / 4096) (info.number / 256 % 16)
      b.log_bloom (Nat.mod_lt _ (by norm_num))
    refine ⟨?_, ?_, ?_, ?_⟩
    · rw [groupAt_applyCanon hfind0]
      exact h0.1
    · rw [groupAt_applyCanon hfind1]
      exact h1.1
    · rw [groupAt_applyCanon hfind2]
      exact h2.1
    · intro k hk
      rw [groupAt_applyCanon hfind0]
      exact h0.2 k hk

/-- Example canon-chain block with a non-zero log bloom. -/
def exBloomBlock : Block :=
  { hash := 104, number := 2, parent_hash := 101, difficulty := 5, timestamp := 9,
    log_bloom := 5, transactions := [] }

/-- Example block info placing `exBloomBlock` on the canon chain. -/
def exBloomInfo : BlockInfo :=
  { hash := 104, number := 2, total_difficulty := 16, location := BlockLocation.canonChain }

/-- Witness for C6 at a concrete canon-chain bloom insertion. -/
theorem canon_bloom_update_witness :
    ∃ upd, prepare_block_blooms_update exS1 exBloomBlock exBloomInfo = some upd ∧
      (groupAt (applyBloomsCanon exS1.blooms (canonize upd))
        ((0 : Nat), (0 : Nat))).getD 0 0 = 0 ∧
      (groupAt (applyBloomsCanon exS1.blooms (canonize upd))
        ((0 : Nat), (0 : Nat))).getD 2 0 = 5 := by
  refine ⟨_, rfl, ?_, ?_⟩
  · have h := canon_bloom_update exS1 exBloomBlock exBloomInfo _
      (fun pos g hg => by simp [exS1] at hg) rfl rfl
    exact (h.2.2.2 0 (by decide)).trans (by decide)
  · have h := canon_bloom_update exS1 exBloomBlock exBloomInfo _
      (fun pos g hg => by simp [exS1] at hg) rfl rfl
    exact h.1.trans (by decide)

/-! Lemmas about `bloomReplace` (the reorg bloom rebuild). -/

theorem getD_map_range (f : Nat → Bloom) (k : Nat) (h : k < 16) :
    ((List.range 16).map f).getD k 0 = f k := by
  rw [List.getD_eq_getElem?_getD, List.getElem?_eq_getElem (by simpa using h)]
  simp

theorem find?_range'_map (lvl a len j : Nat) (g : Nat → BloomGroup) :
    ((List.range' a len).map (fun idx => (((lvl, idx) : GroupPosition), g idx))).find?
        (fun q => q.1 = ((lvl, j) : GroupPosition)) =
      if a ≤ j ∧ j < a + len then some ((lvl, j), g j) else none := by
  induction len generalizing a with
  | zero =>
    rw [if_neg (by omega)]
    rfl
  | succ m ih =>
    rw [List.range'_succ, List.map_cons, List.find?_cons]
    by_cases hj : a = j
    · subst hj
      simp
    · have hcond : (decide ((((lvl, a) : GroupPosition)) = ((lvl, j) : GroupPosition))) = false := by
        simp [hj]
      rw [hcond, ih (a + 1)]
      by_cases h1 : a + 1 ≤ j ∧ j < a + 1 + m
      · rw [if_pos h1, if_pos (by omega)]
      · rw [if_neg h1, if_neg (by omega)]

theorem find?_level_ne (lvl lvl' a len j : Nat) (g : Nat → BloomGroup) (h : lvl ≠ lvl') :
    ((List.range' a len).map (fun idx => (((lvl, idx) : GroupPosition), g idx))).find?
        (fun q => q.1 = ((lvl', j) : GroupPosition)) = none := by
  rw [List.find?_eq_none]
  intro x hx
  rcases List.mem_map.mp hx with ⟨idx, _, rfl⟩
  simp [h]

theorem bloomReplace_level0_lookup (db : GroupPosition → Option BloomGroup)
    (start stop : Nat) (blooms : List Bloom) (j : Nat)
    (hne : start < max stop (start + blooms.length)) :
    alookup (bloomReplace db start stop blooms) ((0 : Nat), j) =
      if start / 16 ≤ j ∧ j ≤ (max stop (start + blooms.length) - 1) / 16 then
        some ((List.range 16).map fun k => newL0 db start stop blooms (j * 16 + k))
      else none := by
  unfold bloomReplace alookup
  rw [if_pos hne]
  rw [List.find?_append, List.find?_append]
  rw [find?_range'_map 0 (start / 16) ((max stop (start + blooms.length) - 1) / 16 - start / 16 + 1) j]
  rw [find?_level_ne 1 0 _ _ _ _ (by omega), find?_level_ne 2 0 _ _ _ _ (by omega)]
  have hdiv : start / 16 ≤ (max stop (start + blooms.length) - 1) / 16 :=
    Nat.div_le_div_right (by omega)
  by_cases hj : start / 16 ≤ j ∧ j ≤ (max stop (start + blooms.length) - 1) / 16
  · rw [if_pos (by omega), if_pos hj]
    rfl
  · rw [if_neg (by omega), if_neg hj]
    rfl

theorem bloomReplace_covered (db : GroupPosition → Option BloomGroup)
    (start stop : Nat) (blooms : List Bloom) (n : Nat)
    (h1 : start ≤ n) (h2 : n < start + blooms.length) :
    ∃ g, alookup (bloomReplace db start stop blooms) ((0 : Nat), n / 16) = some g ∧
      g.getD (n % 16) 0 = blooms.getD (n - start) 0 := by
  have hne : start < max stop (start + blooms.length) := by omega
  rw [bloomReplace_level0_lookup db start stop blooms (n / 16) hne]
  have hrange : start / 16 ≤ n / 16 ∧ n / 16 ≤ (max stop (start + blooms.length) - 1) / 16 :=
    ⟨Nat.div_le_div_right h1, Nat.div_le_div_right (by omega)⟩
  rw [if_pos hrange]
  refine ⟨_, rfl, ?_⟩
  rw [getD_map_range _ _ (Nat.mod_lt _ (by norm_num))]
  rw [show n / 16 * 16 + n % 16 = n from by omega]
  unfold newL0
  rw [if_pos ⟨h1, h2⟩]

theorem bloomReplace_reset (db : GroupPosition → Option BloomGroup)
    (start stop : Nat) (blooms : List Bloom) (n : Nat)
    (h1 : start + blooms.length ≤ n) (h2 : n < stop) :
    ∃ g, alookup (bloomReplace db start stop blooms) ((0 : Nat), n / 16) = some g ∧
      g.getD (n % 16) 0 = 0 := by
  have hne : start < max stop (start + blooms.length) := by omega
  rw [bloomReplace_level0_lookup db start stop blooms (n / 16) hne]
  have hrange : start / 16 ≤ n / 16 ∧ n / 16 ≤ (max stop (start + blooms.length) - 1) / 16 :=
    ⟨Nat.div_le_div_right (by omega), Nat.div_le_div_right (by omega)⟩
  rw [if_pos hrange]
  refine ⟨_, rfl, ?_⟩
  rw [getD_map_range _ _ (Nat.mod_lt _ (by norm_num))]
  rw [show n / 16 * 16 + n % 16 = n from by omega]
  unfold newL0
  rw [if_neg (by omega), if_pos ⟨by omega, h2⟩]

theorem bloomReplace_level0_positions (db : GroupPosition → Option BloomGroup)
    (start stop : Nat) (blooms : List Bloom) (j : Nat)
    (hne : start < max stop (start + blooms.length)) :
    (((0 : Nat), j) ∈ (bloomReplace db start stop blooms).map Prod.fst ↔
      start / 16 ≤ j ∧ j ≤ (max stop (start + blooms.length) - 1) / 16) := by
  constructor
  · intro hm
    by_contra hj
    have := bloomReplace_level0_lookup db start stop blooms j hne
    rw [if_neg hj] at this
    rcases List.mem_map.mp hm with ⟨q, hq, hfst⟩
    have : alookup (bloomReplace db start stop blooms) ((0 : Nat), j) ≠ none := by
      intro hnone
      exact absurd hq (by
        intro hmem
        have := alookup_eq_none.mp hnone q.2
        exact this (by rcases q with ⟨qk, qv⟩; cases hfst; exact hmem))
    exact this (by rw [bloomReplace_level0_lookup db start stop blooms j hne, if_neg hj])
  · intro hj
    have := bloomReplace_level0_lookup db start stop blooms j hne
    rw [if_pos hj] at this
    exact List.mem_map.mpr ⟨_, alookup_mem this, rfl⟩

/-- The reorg bloom update exactly as claim C5 words it: the same from-scratch
replace, but over the range from ancestor.number + 1 up to the NEW best
block's number (the number of the block being inserted), not the incumbent
best block's number that the source passes. -/
def prepare_block_blooms_update_claimC5 (s : ChainState) (b : Block) (info : BlockInfo) :
    Option (List (GroupPosition × BloomGroup)) :=
  match info.location with
  | .branchBecomingCanonChain data =>
    match s.details data.ancestor with
    | none => none
    | some ad =>
      match data.enacted.mapM (fun h => (s.blocks h).map (fun blk => blk.log_bloom)) with
      | none => none
      | some ebs =>
          some (bloomReplace s.blooms (ad.number + 1) (b.number + 1) (ebs ++ [b.log_bloom]))
  | _ => none

/-- Claim C5 (amended): on every BranchBecomingCanonChain insertion the
bloom update is a from-scratch replace whose input blooms, laid out from
ancestor.number + 1, are the concatenation of the enacted blocks' header
blooms followed by the new block's header bloom (so the covered slots get
exactly those blooms), whose reset range runs from ancestor.number + 1 up to
(exclusive) the incumbent pre-insert best block's number — not the new best
block's number — with reset slots beyond the supplied blooms zeroed, and the
rebuilt level-0 groups are exactly those covering the union of the two
intervals. -/
theorem reorg_bloom_update (s : ChainState) (b : Block) (info : BlockInfo)
    (data : BranchBecomingCanonChainData) (ad : BlockDetails) (ebs : List Bloom)
    (upd : List (GroupPosition × BloomGroup))
    (hloc : info.location = BlockLocation.branchBecomingCanonChain data)
    (had : s.details data.ancestor = some ad)
    (hebs : data.enacted.mapM (fun h => (s.blocks h).map (fun blk => blk.log_bloom)) = some ebs)
    (hupd : prepare_block_blooms_update s b info = some upd) :
    upd = bloomReplace s.blooms (ad.number + 1) s.best.number (ebs ++ [b.log_bloom]) ∧
    (∀ n, ad.number + 1 ≤ n → n < ad.number + 1 + (ebs.length + 1) →
      ∃ g, alookup upd ((0 : Nat), n / 16) = some g ∧
        g.getD (n % 16) 0 = (ebs ++ [b.log_bloom]).getD (n - (ad.number + 1)) 0) ∧
    (∀ n, ad.number + 1 + (ebs.length + 1) ≤ n → n < s.best.number →
      ∃ g, alookup upd ((0 : Nat), n / 16) = some g ∧ g.getD (n % 16) 0 = 0) ∧
    (∀ j, ((0 : Nat), j) ∈ upd.map Prod.fst ↔
      (ad.number + 1) / 16 ≤ j ∧
        j ≤ (max s.best.number (ad.number + 1 + (ebs.length + 1)) - 1) / 16) := by
  unfold prepare_block_blooms_update at hupd
  rw [hloc] at hupd
  dsimp only at hupd
  rw [had] at hupd
  dsimp only at hupd
  rw [hebs] at hupd
  dsimp only at hupd
  obtain rfl := Option.some.inj hupd
  have hlen : (ebs ++ [b.log_bloom]).length = ebs.length + 1 := by simp
  have hne : ad.number + 1 < max s.best.number (ad.number + 1 + (ebs ++ [b.log_bloom]).length) := by
    rw [hlen]
    omega
  refine ⟨rfl, ?_, ?_, ?_⟩
  · intro n hn1 hn2
    exact bloomReplace_covered s.blooms (ad.number + 1) s.best.number (ebs ++ [b.log_bloom]) n
      hn1 (by omega)
  · intro n hn1 hn2
    exact bloomReplace_reset s.blooms (ad.number + 1) s.best.number (ebs ++ [b.log_bloom]) n
      (by omega) hn2
  · intro j
    have := bloomReplace_level0_positions s.blooms (ad.number + 1) s.best.number
      (ebs ++ [b.log_bloom]) j hne
    rw [hlen] at this
    exact this

/-- Shortening-reorg counterexample state: a three-block canonical chain of
low difficulty on top of the genesis, with a stored bloom (value 7) for the
canonical block at number 2. -/
def exC5S : ChainState :=
  { blocks := fun h => if h = 100 then some exG else none,
    details := fun h =>
      if h = 100 then some ⟨0, 1, 0, [101]⟩
      else if h = 101 then some ⟨1, 2, 100, [102]⟩
      else if h = 102 then some ⟨2, 3, 101, [103]⟩
      else if h = 103 then some ⟨3, 4, 102, []⟩ else none,
    hashes := fun n =>
      if n = 0 then some 100 else if n = 1 then some 101
      else if n = 2 then some 102 else if n = 3 then some 103 else none,
    txAddrs := fun _ => none,
    receipts := fun _ => none,
    blooms := fun pos =>
      if pos = ((0 : Nat), (0 : Nat)) then
        some [0, 0, 7, 0, 0, 0, 0, 0, 0, 0, 0, 0, 0, 0, 0, 0]
      else none,
    best := { hash := 103, number := 3, total_difficulty := 4, timestamp := 8, block := exG },
    bestAncient := none }

/-- Heavy one-block competitor triggering a shortening reorg (total
difficulty 11 beats 4, canonical length drops from 3 to 1). -/
def exC5B : Block :=
  { hash := 110, number := 1, parent_hash := 100, difficulty := 10, timestamp := 9,
    log_bloom := 5, transactions := [] }

/-- The block info the source computes for `exC5B` on `exC5S`. -/
def exC5Info : BlockInfo :=
  { hash := 110, number := 1, total_difficulty := 11,
    location := BlockLocation.branchBecomingCanonChain
      { ancestor := 100, enacted := [], retracted := [103, 102, 101] } }

/-- Counterexample to claim C5 as stated: on the shortening reorg of
`exC5S`, the source's bloom update zeroes the retracted slot at number 2
(its reset range reaches the incumbent best number 3), while the claimed
range — up to the new best number 1 — would leave the stored bloom 7 there,
so the two updates differ. -/
theorem reorg_bloom_range_counterexample :
    block_info exC5S 20 exC5B = some exC5Info ∧
    prepare_block_blooms_update exC5S exC5B exC5Info ≠
      prepare_block_blooms_update_claimC5 exC5S exC5B exC5Info := by
  have h2 : (prepare_block_blooms_update exC5S exC5B exC5Info).map
      (fun l => (l.headD (((0, 0) : GroupPosition), [])).2.getD 2 0) = some 0 := by decide
  have h3 : (prepare_block_blooms_update_claimC5 exC5S exC5B exC5Info).map
      (fun l => (l.headD (((0, 0) : GroupPosition), [])).2.getD 2 0) = some 7 := by decide
  refine ⟨by decide, fun h => ?_⟩
  rw [h] at h2
  rw [h2] at h3
  exact absurd h3 (by decide)

/-- Witness for the amended C5 at the concrete shortening reorg. -/
theorem reorg_bloom_update_witness :
    ∃ upd, prepare_block_blooms_update exC5S exC5B exC5Info = some upd ∧
      ∃ g, alookup upd ((0 : Nat), 1 / 16) = some g ∧
        g.getD (1 % 16) 0 = (([] ++ [exC5B.log_bloom] : List Bloom)).getD (1 - 1) 0 := by
  refine ⟨_, rfl, ?_⟩
  exact (reorg_bloom_update exC5S exC5B exC5Info
    { ancestor := 100, enacted := [], retracted := [103, 102, 101] }
    ⟨0, 1, 0, [101]⟩ [] _ rfl (by decide) rfl rfl).2.1 1 (by decide) (by decide)

/-! The startup binary search locates the presence threshold when presence
is monotone on the searched interval. -/

theorem firstSearch_spec (bh : Nat → Option Hash) (t : Nat) (hval : Hash)
    (hbt : bh t = some hval) :
    ∀ fl l f h, f - l = fl → l ≤ t → t ≤ f → bh f = some h →
      (∀ m, l ≤ m → m ≤ f → ((bh m).isSome ↔ t ≤ m)) →
      firstSearch bh l f h = (t, hval) := by
  intro fl
  induction fl using Nat.strong_induction_on with
  | _ fl ih =>
    intro l f h hfl hlt htf hbf hmono
    rw [firstSearch]
    by_cases hlf : l < f
    · rw [dif_pos hlf]
      dsimp only
      cases hbm : bh (l + (f - l) / 2) with
      | some h2 =>
        have htm : t ≤ l + (f - l) / 2 :=
          (hmono (l + (f - l) / 2) (by omega) (by omega)).mp (by rw [hbm]; rfl)
        exact ih ((l + (f - l) / 2) - l) (by omega) l (l + (f - l) / 2) h2 rfl hlt htm hbm
          (fun mm h1 h2' => hmono mm h1 (by omega))
      | none =>
        have htm : ¬ t ≤ l + (f - l) / 2 := by
          intro hc
          have := (hmono (l + (f - l) / 2) (by omega) (by omega)).mpr hc
          rw [hbm] at this
          exact Bool.noConfusion this
        exact ih (f - (l + (f - l) / 2 + 1)) (by omega) (l + (f - l) / 2 + 1) f h rfl
          (by omega) htf hbf (fun mm h1 h2' => hmono mm (by omega) h2')
    · rw [dif_neg hlf]
      have htef : t = f := by omega
      subst htef
      rw [hbt] at hbf
      obtain rfl := Option.some.inj hbf
      rfl

/-- Claim C7: with the `first` key absent, the startup binary search between
the ancient number (or 0) and the best number — over presence of
`block_hash(m)`, assumed monotone on that interval with threshold `t` —
stops exactly at `t`, the lowest canonical number at which a hash is
available above the gap; the hash found there is persisted as the first
block unless it is the genesis hash, in which case the first block stays
absent. -/
theorem first_block_search (bh : Nat → Option Hash) (bestNumber : Nat) (bestHash : Hash)
    (ancientNumber : Option Nat) (genesisHash : Hash) (t : Nat) (hval : Hash)
    (hg : bh 0 = some genesisHash)
    (hlt : ancientNumber.getD 0 ≤ t) (htb : t ≤ bestNumber)
    (hbest : bh bestNumber = some bestHash)
    (hbt : bh t = some hval)
    (hmono : ∀ m, ancientNumber.getD 0 ≤ m → m ≤ bestNumber → ((bh m).isSome ↔ t ≤ m)) :
    firstSearch bh (ancientNumber.getD 0) bestNumber bestHash = (t, hval) ∧
    (∀ m, ancientNumber.getD 0 ≤ m → m < t → bh m = none) ∧
    computeFirstBlock bh bestNumber bestHash ancientNumber =
      some (if hval = genesisHash then none else some hval) := by
  have hsearch := firstSearch_spec bh t hval hbt (bestNumber - ancientNumber.getD 0)
    (ancientNumber.getD 0) bestNumber bestHash rfl hlt htb hbest hmono
  refine ⟨hsearch, ?_, ?_⟩
  · intro m h1 h2
    have := hmono m h1 (by omega)
    cases hbm : bh m with
    | none => rfl
    | some w =>
      rw [hbm] at this
      have := this.mp rfl
      omega
  · unfold computeFirstBlock
    rw [hg]
    dsimp only
    rw [hsearch]
    by_cases hh : hval = genesisHash
    · rw [if_pos hh, if_pos hh]
    · rw [if_neg hh, if_neg hh]

/-- Example number-to-hash presence map with a gap at numbers 1 and 2. -/
def exBH7 : Nat → Option Hash := fun n =>
  if n = 0 then some 100
  else if n = 3 then some 55
  else if n = 4 then some 66 else none

/-- Witness for C7 at a concrete gapped store: ancient number 1, threshold 3. -/
theorem first_block_search_witness :
    firstSearch exBH7 ((some 1 : Option Nat).getD 0) 4 66 = (3, 55) ∧
    computeFirstBlock exBH7 4 66 (some 1) = some (some 55) := by
  have h := first_block_search exBH7 4 66 (some 1) 100 3 55 rfl (by decide) (by decide)
    rfl rfl (by
      intro m h1 h2
      have h1' : 1 ≤ m := h1
      clear h1
      interval_cases m <;> decide)
  refine ⟨h.1, ?_⟩
  have h3 := h.2.2
  rw [if_neg (by decide)] at h3
  exact h3

/-! Lemmas about the transaction-address update entries. -/

theorem mem_txEntriesFrom {H : Hash} {i0 : Nat} {txs : List Hash} {k : Hash}
    {v : Option TransactionAddress} (h : (k, v) ∈ txEntriesFrom H i0 txs) :
    ∃ j, txs.get? j = some k ∧ v = some { block_hash := H, index := i0 + j } := by
  induction txs generalizing i0 with
  | nil => simp [txEntriesFrom] at h
  | cons tx rest ih =>
    rw [txEntriesFrom] at h
    rcases List.mem_cons.mp h with he | hm
    · obtain ⟨rfl, rfl⟩ := Prod.mk.injEq .. ▸ he
      exact ⟨0, rfl, by simp⟩
    · obtain ⟨j, h1, h2⟩ := ih hm
      refine ⟨j + 1, by simpa using h1, ?_⟩
      rw [h2]
      exact congrArg (fun n => some ({ block_hash := H, index := n } : TransactionAddress))
        (by omega)

theorem txEntriesFrom_mem_of {H : Hash} {i0 : Nat} {txs : List Hash} {k : Hash}
    (h : k ∈ txs) :
    ∃ i, (k, some { block_hash := H, index := i }) ∈ txEntriesFrom H i0 txs := by
  induction txs generalizing i0 with
  | nil => simp at h
  | cons tx rest ih =>
    rcases List.mem_cons.mp h with rfl | hm
    · exact ⟨i0, List.mem_cons_self _ _⟩
    · obtain ⟨i, hi⟩ := @ih (i0 + 1) hm
      exact ⟨i, List.mem_cons_of_mem _ hi⟩

theorem mem_enactedEntries {s : ChainState} {hs : List Hash}
    {l : List (Hash × Option TransactionAddress)} {k : Hash} {v : Option TransactionAddress}
    (he : enactedEntries s hs = some l) (hm : (k, v) ∈ l) :
    ∃ e blk j, e ∈ hs ∧ s.blocks e = some blk ∧ blk.transactions.get? j = some k ∧
      v = some { block_hash := e, index := j } := by
  induction hs generalizing l with
  | nil =>
    rw [enactedEntries] at he
    obtain rfl := Option.some.inj he
    simp at hm
  | cons e rest ih =>
    rw [enactedEntries] at he
    cases hblk : s.blocks e with
    | none => rw [hblk] at he; exact Option.noConfusion he
    | some blk =>
      rw [hblk] at he
      cases hrest : enactedEntries s rest with
      | none => rw [hrest] at he; exact Option.noConfusion he
      | some l' =>
        rw [hrest] at he
        obtain rfl := Option.some.inj he
        rcases List.mem_append.mp hm with h1 | h2
        · obtain ⟨j, hj, hv⟩ := mem_txEntriesFrom h1
          exact ⟨e, blk, j, List.mem_cons_self _ _, hblk, hj, by simpa using hv⟩
        · obtain ⟨e', blk', j, h3, h4, h5, h6⟩ := ih hrest h2
          exact ⟨e', blk', j, List.mem_cons_of_mem _ h3, h4, h5, h6⟩

theorem enactedEntries_mem_of {s : ChainState} {hs : List Hash}
    {l : List (Hash × Option TransactionAddress)} {e : Hash} {blk : Block} {k : Hash}
    (he : enactedEntries s hs = some l) (hin : e ∈ hs) (hblk : s.blocks e = some blk)
    (hk : k ∈ blk.transactions) :
    ∃ i, (k, some { block_hash := e, index := i }) ∈ l := by
  induction hs generalizing l with
  | nil => simp at hin
  | cons e0 rest ih =>
    rw [enactedEntries] at he
    cases hblk0 : s.blocks e0 with
    | none => rw [hblk0] at he; exact Option.noConfusion he
    | some blk0 =>
      rw [hblk0] at he
      cases hrest : enactedEntries s rest with
      | none => rw [hrest] at he; exact Option.noConfusion he
      | some l' =>
        rw [hrest] at he
        obtain rfl := Option.some.inj he
        rcases List.mem_cons.mp hin with rfl | hmem
        · rw [hblk0] at hblk
          obtain rfl := Option.some.inj hblk
          obtain ⟨i, hi⟩ := @txEntriesFrom_mem_of e 0 _ _ hk
          exact ⟨i, List.mem_append.mpr (Or.inl hi)⟩
        · obtain ⟨i, hi⟩ := ih hrest hmem
          exact ⟨i, List.mem_append.mpr (Or.inr hi)⟩

theorem mem_retractedEntries {s : ChainState} {hs : List Hash}
    {l : List (Hash × Option TransactionAddress)} {k : Hash} {v : Option TransactionAddress}
    (he : retractedEntries s hs = some l) (hm : (k, v) ∈ l) :
    v = none ∧ ∃ e blk, e ∈ hs ∧ s.blocks e = some blk ∧ k ∈ blk.transactions := by
  induction hs generalizing l with
  | nil =>
    rw [retractedEntries] at he
    obtain rfl := Option.some.inj he
    simp at hm
  | cons e rest ih =>
    rw [retractedEntries] at he
    cases hblk : s.blocks e with
    | none => rw [hblk] at he; exact Option.noConfusion he
    | some blk =>
      rw [hblk] at he
      cases hrest : retractedEntries s rest with
      | none => rw [hrest] at he; exact Option.noConfusion he
      | some l' =>
        rw [hrest] at he
        obtain rfl := Option.some.inj he
        rcases List.mem_append.mp hm with h1 | h2
        · rcases List.mem_map.mp h1 with ⟨tx, htx, heq⟩
          obtain ⟨rfl, rfl⟩ := Prod.mk.injEq .. ▸ heq.symm
          exact ⟨rfl, e, blk, List.mem_cons_self _ _, hblk, htx⟩
        · obtain ⟨hv, e', blk', h3, h4, h5⟩ := ih hrest h2
          exact ⟨hv, e', blk', List.mem_cons_of_mem _ h3, h4, h5⟩

theorem retractedEntries_mem_of {s : ChainState} {hs : List Hash}
    {l : List (Hash × Option TransactionAddress)} {e : Hash} {blk : Block} {k : Hash}
    (he : retractedEntries s hs = some l) (hin : e ∈ hs) (hblk : s.blocks e = some blk)
    (hk : k ∈ blk.transactions) : (k, (none : Option TransactionAddress)) ∈ l := by
  induction hs generalizing l with
  | nil => simp at hin
  | cons e0 rest ih =>
    rw [retractedEntries] at he
    cases hblk0 : s.blocks e0 with
    | none => rw [hblk0] at he; exact Option.noConfusion he
    | some blk0 =>
      rw [hblk0] at he
      cases hrest : retractedEntries s rest with
      | none => rw [hrest] at he; exact Option.noConfusion he
      | some l' =>
        rw [hrest] at he
        obtain rfl := Option.some.inj he
        rcases List.mem_cons.mp hin with rfl | hmem
        · rw [hblk0] at hblk
          obtain rfl := Option.some.inj hblk
          exact List.mem_append.mpr (Or.inl (List.mem_map.mpr ⟨k, hk, rfl⟩))
        · exact List.mem_append.mpr (Or.inr (ih hrest hmem))

/-! Lemmas about `commit` on the transaction-address overlay. -/

theorem mem_keys_of_mem {K V : Type} {l : List (K × V)} {k : K} {v : V}
    (h : (k, v) ∈ l) : k ∈ l.map Prod.fst :=
  List.mem_map.mpr ⟨(k, v), h, rfl⟩

theorem nodup_value_unique {K V : Type} [DecidableEq K] {l : List (K × V)} {k : K}
    {v w : V} (hnd : (l.map Prod.fst).Nodup) (h1 : (k, v) ∈ l) (h2 : (k, w) ∈ l) :
    v = w := by
  have e1 := alookup_of_mem_nodup hnd h1
  have e2 := alookup_of_mem_nodup hnd h2
  rw [e1] at e2
  exact Option.some.inj e2

theorem alookupLast_nodup {K V : Type} [DecidableEq K] {l : List (K × V)} {k : K}
    (hnd : (l.map Prod.fst).Nodup) : alookupLast l k = alookup l k := by
  cases h : alookup l k with
  | some v =>
    have hm : (k, v) ∈ l.reverse := List.mem_reverse.mpr (alookup_mem h)
    have hnd' : (l.reverse.map Prod.fst).Nodup := by
      rw [List.map_reverse]
      exact List.nodup_reverse.mpr hnd
    exact alookup_of_mem_nodup hnd' hm
  | none =>
    rw [alookupLast]
    rw [alookup_eq_none] at h ⊢
    intro v hv
    exact h v (List.mem_reverse.mp hv)

theorem commit_tx_lookup (s : ChainState) (p : Pending) (k : Hash)
    (hnd : (p.txAddrs.map Prod.fst).Nodup) :
    (commit s p).1.txAddrs k =
      match alookup p.txAddrs k with
      | some (some v) => some v
      | some none => none
      | none => s.txAddrs k := by
  show (let parts := p.txAddrs.partition (fun q => q.2.isNone)
    if (parts.1.map (fun q => q.1)).contains k then none
    else
      match alookup parts.2 k with
      | some v => v
      | none => s.txAddrs k) = _
  rw [List.partition_eq_filter_filter]
  dsimp only
  cases h : alookup p.txAddrs k with
  | none =>
    have hk1 : ¬ k ∈ (p.txAddrs.filter (fun q => q.2.isNone)).map (fun q => q.1) := by
      intro hc
      rcases List.mem_map.mp hc with ⟨q, hq, rfl⟩
      exact alookup_eq_none.mp h q.2 (by
        rcases q with ⟨qk, qv⟩
        exact (List.mem_filter.mp hq).1)
    rw [if_neg (by simpa using hk1)]
    have hk2 : alookup (p.txAddrs.filter (not ∘ fun q => q.2.isNone)) k = none := by
      rw [alookup_eq_none]
      intro v hv
      exact alookup_eq_none.mp h v (List.mem_filter.mp hv).1
    rw [hk2]
  | some v =>
    have hmem := alookup_mem h
    cases v with
    | none =>
      have hk1 : k ∈ (p.txAddrs.filter (fun q => q.2.isNone)).map (fun q => q.1) :=
        List.mem_map.mpr ⟨(k, none), List.mem_filter.mpr ⟨hmem, rfl⟩, rfl⟩
      rw [if_pos (by simpa using hk1)]
    | some w =>
      have hk1 : ¬ k ∈ (p.txAddrs.filter (fun q => q.2.isNone)).map (fun q => q.1) := by
        intro hc
        rcases List.mem_map.mp hc with ⟨q, hq, hfst⟩
        rcases q with ⟨qk, qv⟩
        cases hfst
        have hqm := (List.mem_filter.mp hq).1
        have hv := (List.mem_filter.mp hq).2
        have := nodup_value_unique hnd hmem hqm
        subst this
        simp at hv
      rw [if_neg (by simpa using hk1)]
      have hnd' : ((p.txAddrs.filter (not ∘ fun q => q.2.isNone)).map Prod.fst).Nodup :=
        (List.Sublist.map Prod.fst (List.filter_sublist _)).nodup hnd
      have hk2 : alookup (p.txAddrs.filter (not ∘ fun q => q.2.isNone)) k = some (some w) :=
        alookup_of_mem_nodup hnd' (List.mem_filter.mpr ⟨hmem, rfl⟩)
      rw [hk2]

theorem prepare_update_snd_txAddrs (s : ChainState) (p : Pending) (batch : Batch)
    (u : ExtrasUpdate) (ib : Bool) :
    (prepare_update s p batch u ib).2.1.txAddrs =
      extendC p.txAddrs (canonize u.transactions_addresses) := by
  rcases u with ⟨info, ts, blk, bh, bd, br, bb, ta⟩
  rcases info with ⟨ih, inum, itd, iloc⟩
  cases iloc <;> rfl

theorem extendC_nil_left {K V : Type} [DecidableEq K] (l : List (K × V)) :
    extendC ([] : List (K × V)) l = canonize l := rfl

/-- Claim C3: after a BranchBecomingCanonChain insertion followed by commit,
a transaction hash occurring in a retracted block and also in an enacted
block (or in the newly inserted block) is mapped by the live
transaction-address map to an enacted address, and a transaction hash
occurring only in retracted blocks is absent from the map — the retracted
removals never erase an enacted mapping. -/
theorem reorg_tx_addresses (fuel : Nat) (s : ChainState) (p : Pending) (batch : Batch)
    (b : Block) (rs : List Receipt) (r : ImportRoute) (s1 : ChainState) (p1 : Pending)
    (batch1 : Batch) (info : BlockInfo) (data : BranchBecomingCanonChainData)
    (hkc : is_known_child s b.parent_hash b.hash = false)
    (hpt : p.txAddrs = [])
    (hins : insert_block fuel s p batch b rs = some (r, s1, p1, batch1))
    (hinfo : block_info s fuel b = some info)
    (hloc : info.location = BlockLocation.branchBecomingCanonChain data) :
    ∀ k : Hash,
      (∃ rb, rb ∈ data.retracted ∧ ∃ blk, s.blocks rb = some blk ∧ k ∈ blk.transactions) →
      ((k ∈ b.transactions ∨
          ∃ e, e ∈ data.enacted ∧ ∃ blk, s.blocks e = some blk ∧ k ∈ blk.transactions) →
        ∃ addr, (commit (flushBatch s1 batch1) p1).1.txAddrs k = some addr ∧
          ((addr.block_hash = b.hash ∧ b.transactions.get? addr.index = some k) ∨
           (∃ e blk, e ∈ data.enacted ∧ s.blocks e = some blk ∧ addr.block_hash = e ∧
              blk.transactions.get? addr.index = some k))) ∧
      ((k ∉ b.transactions ∧
          ¬ ∃ e, e ∈ data.enacted ∧ ∃ blk, s.blocks e = some blk ∧ k ∈ blk.transactions) →
        (commit (flushBatch s1 batch1) p1).1.txAddrs k = none) := by
  unfold insert_block at hins
  rw [if_neg (by simp [hkc])] at hins
  have hpb : p.best = none := by
    by_cases h : p.best.isSome
    · rw [if_pos (by simp [h])] at hins
      exact Option.noConfusion hins
    · exact Option.not_isSome_iff_eq_none.mp h
  rw [if_neg (by simp [hpb])] at hins
  rw [hinfo] at hins
  dsimp only at hins
  obtain ⟨hih, hinum⟩ := block_info_fields s fuel b info hinfo
  cases hbhu : prepare_block_hashes_update s b info with
  | none => rw [hbhu] at hins; exact Option.noConfusion hins
  | some bh =>
  cases hbdu : prepare_block_details_update s b info with
  | none => rw [hbhu, hbdu] at hins; exact Option.noConfusion hins
  | some bd =>
  cases hbbu : prepare_block_blooms_update s b info with
  | none => rw [hbhu, hbdu, hbbu] at hins; exact Option.noConfusion hins
  | some bb =>
  cases hretr : retractedEntries s data.retracted with
  | none =>
    have htau : prepare_transaction_addresses_update s b info = none := by
      unfold prepare_transaction_addresses_update
      rw [hloc]
      dsimp only
      rw [hretr]
    rw [hbhu, hbdu, hbbu, htau] at hins
    exact Option.noConfusion hins
  | some retr =>
  cases henact : enactedEntries s data.enacted with
  | none =>
    have htau : prepare_transaction_addresses_update s b info = none := by
      unfold prepare_transaction_addresses_update
      rw [hloc]
      dsimp only
      rw [hretr, henact]
    rw [hbhu, hbdu, hbbu, htau] at hins
    exact Option.noConfusion hins
  | some enact =>
  have htau : prepare_transaction_addresses_update s b info =
      some (retr ++ enact ++ txEntriesFrom info.hash 0 b.transactions) := by
    unfold prepare_transaction_addresses_update
    rw [hloc]
    dsimp only
    rw [hretr, henact]
  rw [hbhu, hbdu, hbbu, htau] at hins
  dsimp only at hins
  have hinj := Option.some.inj hins
  have hp1 := congrArg (fun q => q.2.2.1.txAddrs) hinj
  dsimp only at hp1
  rw [prepare_update_snd_txAddrs, hpt, extendC_nil_left] at hp1
  set ta := retr ++ enact ++ txEntriesFrom info.hash 0 b.transactions with hta_def
  -- the committed live value at any key is governed by the last binding of `ta`
  have hkey : ∀ k : Hash, (commit (flushBatch s1 batch1) p1).1.txAddrs k =
      match alookupLast ta k with
      | some (some v) => some v
      | some none => none
      | none => (flushBatch s1 batch1).txAddrs k := by
    intro k
    rw [commit_tx_lookup _ _ _ (by rw [← hp1]; exact canonize_keysNodup _)]
    rw [← hp1]
    rw [canonize_alookup, alookupLast_nodup (canonize_keysNodup _), canonize_alookup]
  intro k hretracted
  constructor
  · intro hen
    have hsome : ∃ addr, (k, some addr) ∈ enact ++ txEntriesFrom info.hash 0 b.transactions := by
      rcases hen with hcur | ⟨e, hein, blk, hblk, hkin⟩
      · obtain ⟨i, hi⟩ := @txEntriesFrom_mem_of info.hash 0 _ _ hcur
        exact ⟨_, List.mem_append.mpr (Or.inr hi)⟩
      · obtain ⟨i, hi⟩ := enactedEntries_mem_of henact hein hblk hkin
        exact ⟨_, List.mem_append.mpr (Or.inl hi)⟩
    obtain ⟨addr0, haddr0⟩ := hsome
    have hlast : (alookupLast (enact ++ txEntriesFrom info.hash 0 b.transactions) k).isSome :=
      alookupLast_isSome_of_mem haddr0
    obtain ⟨w, hw⟩ := Option.isSome_iff_exists.mp hlast
    have hwmem := alookupLast_mem hw
    have hwprop : ∃ addr, w = some addr ∧
        ((addr.block_hash = b.hash ∧ b.transactions.get? addr.index = some k) ∨
         (∃ e blk, e ∈ data.enacted ∧ s.blocks e = some blk ∧ addr.block_hash = e ∧
            blk.transactions.get? addr.index = some k)) := by
      rcases List.mem_append.mp hwmem with h1 | h2
      · obtain ⟨e, blk, j, he, hblk, hj, hv⟩ := mem_enactedEntries henact h1
        exact ⟨_, hv, Or.inr ⟨e, blk, he, hblk, rfl, hj⟩⟩
      · obtain ⟨j, hj, hv⟩ := mem_txEntriesFrom h2
        refine ⟨_, hv, Or.inl ⟨hih, ?_⟩⟩
        simpa using hj
    obtain ⟨addr, rfl, hprop⟩ := hwprop
    refine ⟨addr, ?_, hprop⟩
    rw [hkey k, hta_def, List.append_assoc, alookupLast_append, hw]
  · intro honly
    have hnone : alookupLast (enact ++ txEntriesFrom info.hash 0 b.transactions) k = none := by
      cases hlast : alookupLast (enact ++ txEntriesFrom info.hash 0 b.transactions) k with
      | none => rfl
      | some w =>
        exfalso
        have hwmem := alookupLast_mem hlast
        rcases List.mem_append.mp hwmem with h1 | h2
        · obtain ⟨e, blk, j, he, hblk, hj, hv⟩ := mem_enactedEntries henact h1
          exact honly.2 ⟨e, he, blk, hblk, List.get?_mem hj⟩
        · obtain ⟨j, hj, hv⟩ := mem_txEntriesFrom h2
          exact honly.1 (List.get?_mem hj)
    obtain ⟨rb, hrb, blk, hblk, hkin⟩ := hretracted
    have hretrmem : (k, (none : Option TransactionAddress)) ∈ retr :=
      retractedEntries_mem_of hretr hrb hblk hkin
    have hrlast : (alookupLast retr k).isSome := alookupLast_isSome_of_mem hretrmem
    obtain ⟨w, hw⟩ := Option.isSome_iff_exists.mp hrlast
    have hwnone : w = none := (mem_retractedEntries hretr (alookupLast_mem hw)).1
    subst hwnone
    rw [hkey k, hta_def, List.append_assoc, alookupLast_append, hnone, hw]

/-- Example block at number 1 with transactions 55, 56, 58 (will be retracted). -/
def exB1a : Block :=
  { hash := 111, number := 1, parent_hash := 100, difficulty := 10, timestamp := 6,
    log_bloom := 0, transactions := [55, 56, 58] }

/-- Example competing block at number 1 with transactions 56, 55 (will be enacted). -/
def exB1b : Block :=
  { hash := 112, number := 1, parent_hash := 100, difficulty := 9, timestamp := 6,
    log_bloom := 0, transactions := [56, 55] }

/-- Example block on top of `exB1b` triggering the reorg. -/
def exB2 : Block :=
  { hash := 113, number := 2, parent_hash := 112, difficulty := 9, timestamp := 7,
    log_bloom := 0, transactions := [57] }

/-- Example state holding both number-1 competitors with `exB1a` best. -/
def exS3 : ChainState :=
  { blocks := fun h =>
      if h = 100 then some exG else if h = 111 then some exB1a
      else if h = 112 then some exB1b else none,
    details := fun h =>
      if h = 100 then some ⟨0, 1, 0, [111, 112]⟩
      else if h = 111 then some ⟨1, 11, 100, []⟩
      else if h = 112 then some ⟨1, 10, 100, []⟩ else none,
    hashes := fun n => if n = 0 then some 100 else if n = 1 then some 111 else none,
    txAddrs := fun k =>
      if k = 55 then some ⟨111, 0⟩ else if k = 56 then some ⟨111, 1⟩
      else if k = 58 then some ⟨111, 2⟩ else none,
    receipts := fun _ => none,
    blooms := fun _ => none,
    best := { hash := 111, number := 1, total_difficulty := 11, timestamp := 6, block := exB1a },
    bestAncient := none }

/-- Witness for C3 at the concrete reorg: transaction 55 (retracted and
enacted) keeps an enacted address, transaction 58 (only retracted) is gone. -/
theorem reorg_tx_addresses_witness :
    ∃ x, insert_block 20 exS3 exP0 exBatch0 exB2 [] = some x ∧
      (∃ addr, (commit (flushBatch x.2.1 x.2.2.2) x.2.2.1).1.txAddrs 55 = some addr ∧
        ((addr.block_hash = exB2.hash ∧ exB2.transactions.get? addr.index = some 55) ∨
         (∃ e blk, e ∈ [112] ∧ exS3.blocks e = some blk ∧ addr.block_hash = e ∧
            blk.transactions.get? addr.index = some 55))) ∧
      (commit (flushBatch x.2.1 x.2.2.2) x.2.2.1).1.txAddrs 58 = none := by
  refine ⟨_, rfl, ?_, ?_⟩
  · exact ((reorg_tx_addresses 20 exS3 exP0 exBatch0 exB2 [] _ _ _ _
      { hash := 113, number := 2, total_difficulty := 19,
        location := BlockLocation.branchBecomingCanonChain
          { ancestor := 100, enacted := [112], retracted := [111] } }
      { ancestor := 100, enacted := [112], retracted := [111] }
      (by decide) rfl rfl (by decide) rfl) 55
      ⟨111, by decide, exB1a, rfl, by decide⟩).1
      (Or.inr ⟨112, by decide, exB1b, rfl, by decide⟩)
  · exact ((reorg_tx_addresses 20 exS3 exP0 exBatch0 exB2 [] _ _ _ _
      { hash := 113, number := 2, total_difficulty := 19,
        location := BlockLocation.branchBecomingCanonChain
          { ancestor := 100, enacted := [112], retracted := [111] } }
      { ancestor := 100, enacted := [112], retracted := [111] }
      (by decide) rfl rfl (by decide) rfl) 58
      ⟨111, by decide, exB1a, rfl, by decide⟩).2
      ⟨by decide, fun ⟨e, he, blk, hblk, hkin⟩ => by
        rcases List.mem_singleton.mp he with rfl
        obtain rfl := Option.some.inj hblk
        revert hkin
        decide⟩

/-! Infrastructure for the tree-route specification: a Boolean predicate for
a parent-linked, number-consistent chain segment ending at an ancestor. -/

/-- `echainB d base l` holds when `l` is nonempty, every element has a
details record, consecutive elements are linked by parent pointers, and the
element at distance `i` from the end has number `base + i`. -/
def echainB (d : Hash → Option BlockDetails) (base : Nat) : List Hash → Bool
  | [] => false
  | [x] =>
    match d x with
    | some det => decide (det.number = base)
    | none => false
  | x :: y :: xs =>
    match d x with
    | some det =>
        decide (det.number = base + (y :: xs).length) && decide (det.parent = y) &&
          echainB d base (y :: xs)
    | none => false

theorem echainB_head {d : Hash → Option BlockDetails} {base : Nat} {x : Hash}
    {xs : List Hash} (h : echainB d base (x :: xs) = true) :
    ∃ det, d x = some det ∧ det.number = base + xs.length := by
  cases xs with
  | nil =>
    rw [echainB] at h
    cases hd : d x with
    | none => rw [hd] at h; exact Bool.noConfusion h
    | some det =>
      rw [hd] at h
      exact ⟨det, rfl, by simpa using of_decide_eq_true h⟩
  | cons y ys =>
    rw [echainB] at h
    cases hd : d x with
    | none => rw [hd] at h; exact Bool.noConfusion h
    | some det =>
      rw [hd] at h
      simp only [Bool.and_eq_true, decide_eq_true_eq] at h
      exact ⟨det, rfl, h.1.1⟩

theorem echainB_cons {d : Hash → Option BlockDetails} {base : Nat} {x y : Hash}
    {xs : List Hash} (h : echainB d base (x :: y :: xs) = true) :
    ∃ det, d x = some det ∧ det.number = base + xs.length + 1 ∧ det.parent = y ∧
      echainB d base (y :: xs) = true := by
  rw [echainB] at h
  cases hd : d x with
  | none => rw [hd] at h; exact Bool.noConfusion h
  | some det =>
    rw [hd] at h
    simp only [Bool.and_eq_true, decide_eq_true_eq] at h
    exact ⟨det, rfl, by simpa [Nat.add_comm, Nat.add_assoc, Nat.add_left_comm] using h.1.1,
      h.1.2, h.2⟩

theorem echainB_drop {d : Hash → Option BlockDetails} {base : Nat} :
    ∀ {l : List Hash} {k : Nat}, echainB d base l = true → k < l.length →
      echainB d base (l.drop k) = true := by
  intro l
  induction l with
  | nil => intro k h hk; simp at hk
  | cons x xs ih =>
    intro k h hk
    cases k with
    | zero => exact h
    | succ k' =>
      cases xs with
      | nil => simp at hk
      | cons y ys =>
        obtain ⟨det, _, _, _, htail⟩ := echainB_cons h
        exact ih htail (by simpa using Nat.lt_of_succ_lt_succ hk)

theorem treeRouteLevel_run (d : Hash → Option BlockDetails) (base : Nat) :
    ∀ (rest : List Hash) (x : Hash) (dx : BlockDetails) (acc : List Hash) (target fuel : Nat),
      echainB d base (x :: rest) = true → d x = some dx → base ≤ target →
      rest.length + 1 ≤ fuel →
      ∃ y ys dy, (x :: rest).drop ((base + rest.length) - target) = y :: ys ∧
        d y = some dy ∧ dy.number = base + ys.length ∧
        treeRouteLevel d fuel acc x dx target =
          some (acc ++ (x :: rest).take ((base + rest.length) - target), y, dy) := by
  intro rest
  induction rest with
  | nil =>
    intro x dx acc target fuel hchain hdx hbt hfuel
    obtain ⟨det, hdet, hnum⟩ := echainB_head hchain
    rw [hdx] at hdet
    obtain rfl := Option.some.inj hdet
    cases fuel with
    | zero => omega
    | succ f =>
      have hk : (base + ([] : List Hash).length) - target = 0 := by simp; omega
      rw [hk]
      refine ⟨x, [], dx, rfl, hdx, by simpa using hnum, ?_⟩
      rw [treeRouteLevel, if_neg (by omega), List.take_zero, List.append_nil]
  | cons y0 rest' ih =>
    intro x dx acc target fuel hchain hdx hbt hfuel
    obtain ⟨det, hdet, hnum, hpar, htail⟩ := echainB_cons hchain
    rw [hdx] at hdet
    obtain rfl := Option.some.inj hdet
    cases fuel with
    | zero => omega
    | succ f =>
      by_cases hstop : target < dx.number
      · -- take one step down
        obtain ⟨dy0, hdy0, _⟩ := echainB_head htail
        obtain ⟨y, ys, dy, hdrop, hdy, hdynum, hrun⟩ :=
          ih y0 dy0 (acc ++ [x]) target f htail hdy0 hbt (by
            simp only [List.length_cons] at hfuel ⊢
            omega)
        have hk : (base + (y0 :: rest').length) - target =
            ((base + rest'.length) - target) + 1 := by
          simp only [List.length_cons] at hnum ⊢
          omega
        rw [hk]
        refine ⟨y, ys, dy, by simpa using hdrop, hdy, hdynum, ?_⟩
        rw [treeRouteLevel, if_pos hstop, hpar, hdy0]
        dsimp only
        rw [hrun, List.take_succ_cons, List.append_assoc]
        rfl
      · -- already at or below the target
        have hk : (base + (y0 :: rest').length) - target = 0 := by
          simp only [List.length_cons] at hnum ⊢
          omega
        rw [hk]
        refine ⟨x, y0 :: rest', dx, rfl, hdx, hnum, ?_⟩
        rw [treeRouteLevel, if_neg hstop, List.take_zero, List.append_nil]

theorem treeRouteJoin_run (d : Hash → Option BlockDetails) (base : Nat) (a : Hash) :
    ∀ (n : Nat) (r₁ r₂ : List Hash) (x y : Hash) (dx dy : BlockDetails)
      (fb tb : List Hash) (fuel : Nat),
      echainB d base (x :: r₁) = true → echainB d base (y :: r₂) = true →
      r₁.length = n → r₂.length = n →
      d x = some dx → d y = some dy →
      (∀ i, i < n → (x :: r₁).getD i 0 ≠ (y :: r₂).getD i 0) →
      (x :: r₁).getLast? = some a → (y :: r₂).getLast? = some a →
      n + 1 ≤ fuel →
      treeRouteJoin d fuel fb tb x dx y dy =
        some { blocks := (fb ++ (x :: r₁).dropLast) ++ (tb ++ (y :: r₂).dropLast).reverse,
               ancestor := a, index := (fb ++ (x :: r₁).dropLast).length } := by
  intro n
  induction n with
  | zero =>
    intro r₁ r₂ x y dx dy fb tb fuel hc1 hc2 hl1 hl2 hdx hdy hdist hla1 hla2 hfuel
    obtain rfl := List.length_eq_zero.mp hl1
    obtain rfl := List.length_eq_zero.mp hl2
    obtain rfl : x = a := by simpa using hla1
    obtain rfl : y = x := by simpa using hla2
    cases fuel with
    | zero => omega
    | succ f =>
      rw [treeRouteJoin, if_neg (by simp)]
      simp
  | succ m ih =>
    intro r₁ r₂ x y dx dy fb tb fuel hc1 hc2 hl1 hl2 hdx hdy hdist hla1 hla2 hfuel
    cases r₁ with
    | nil => simp at hl1
    | cons z₁ r₁' =>
    cases r₂ with
    | nil => simp at hl2
    | cons z₂ r₂' =>
    obtain ⟨det1, hdet1, hnum1, hpar1, htail1⟩ := echainB_cons hc1
    rw [hdx] at hdet1
    obtain rfl := Option.some.inj hdet1
    obtain ⟨det2, hdet2, hnum2, hpar2, htail2⟩ := echainB_cons hc2
    rw [hdy] at hdet2
    obtain rfl := Option.some.inj hdet2
    obtain ⟨dz1, hdz1, _⟩ := echainB_head htail1
    obtain ⟨dz2, hdz2, _⟩ := echainB_head htail2
    have hxy : x ≠ y := by simpa using hdist 0 (by omega)
    cases fuel with
    | zero => omega
    | succ f =>
      rw [treeRouteJoin, if_pos hxy, hpar1, hpar2, hdz1, hdz2]
      dsimp only
      have hrec := ih r₁' r₂' z₁ z₂ dz1 dz2 (fb ++ [x]) (tb ++ [y]) f htail1 htail2
        (by simpa using hl1) (by simpa using hl2) hdz1 hdz2
        (fun i hi => by
          have := hdist (i + 1) (by omega)
          simpa using this)
        (by rw [← List.getLast?_cons_cons (a := x)]; exact hla1)
        (by rw [← List.getLast?_cons_cons (a := y)]; exact hla2)
        (by omega)
      rw [hrec]
      have hd1 : (x :: z₁ :: r₁').dropLast = x :: (z₁ :: r₁').dropLast := by
        rfl
      have hd2 : (y :: z₂ :: r₂').dropLast = y :: (z₂ :: r₂').dropLast := by
        rfl
      rw [hd1, hd2]
      have he1 : fb ++ [x] ++ (z₁ :: r₁').dropLast = fb ++ x :: (z₁ :: r₁').dropLast := by
        rw [List.append_assoc]
        rfl
      have he2 : tb ++ [y] ++ (z₂ :: r₂').dropLast = tb ++ y :: (z₂ :: r₂').dropLast := by
        rw [List.append_assoc]
        rfl
      rw [he1, he2]

theorem treeRouteLevel_details (d : Hash → Option BlockDetails) :
    ∀ (fuel : Nat) (acc : List Hash) (cur : Hash) (cd : BlockDetails) (target : Nat)
      (res : List Hash × Hash × BlockDetails),
      treeRouteLevel d fuel acc cur cd target = some res →
      d cur = some cd → (∀ h, h ∈ acc → (d h).isSome) →
      (∀ h, h ∈ res.1 → (d h).isSome) ∧ d res.2.1 = some res.2.2 := by
  intro fuel
  induction fuel with
  | zero => intro acc cur cd target res hrun; exact Option.noConfusion hrun
  | succ f ih =>
    intro acc cur cd target res hrun hcur hacc
    rw [treeRouteLevel] at hrun
    by_cases hstop : target < cd.number
    · rw [if_pos hstop] at hrun
      cases hp : d cd.parent with
      | none => rw [hp] at hrun; exact Option.noConfusion hrun
      | some pd =>
        rw [hp] at hrun
        dsimp only at hrun
        exact ih (acc ++ [cur]) cd.parent pd target res hrun hp (by
          intro h hm
          rcases List.mem_append.mp hm with h1 | h2
          · exact hacc h h1
          · rw [List.mem_singleton.mp h2, hcur]
            rfl)
    · rw [if_neg hstop] at hrun
      obtain rfl := Option.some.inj hrun
      exact ⟨hacc, hcur⟩

theorem treeRouteJoin_details (d : Hash → Option BlockDetails) :
    ∀ (fuel : Nat) (fb tb : List Hash) (cf : Hash) (fd : BlockDetails) (ct : Hash)
      (td : BlockDetails) (r : TreeRoute),
      treeRouteJoin d fuel fb tb cf fd ct td = some r →
      d cf = some fd → d ct = some td →
      (∀ h, h ∈ fb → (d h).isSome) → (∀ h, h ∈ tb → (d h).isSome) →
      (∀ h, h ∈ r.blocks → (d h).isSome) ∧ (d r.ancestor).isSome := by
  intro fuel
  induction fuel with
  | zero => intro fb tb cf fd ct td r hrun; exact Option.noConfusion hrun
  | succ f ih =>
    intro fb tb cf fd ct td r hrun hcf hct hfb htb
    rw [treeRouteJoin] at hrun
    by_cases hne : cf ≠ ct
    · rw [if_pos hne] at hrun
      cases hp1 : d fd.parent with
      | none => rw [hp1] at hrun; exact Option.noConfusion hrun
      | some fd2 =>
        cases hp2 : d td.parent with
        | none => rw [hp1, hp2] at hrun; exact Option.noConfusion hrun
        | some td2 =>
          rw [hp1, hp2] at hrun
          dsimp only at hrun
          exact ih (fb ++ [cf]) (tb ++ [ct]) fd.parent fd2 td.parent td2 r hrun hp1 hp2
            (by
              intro h hm
              rcases List.mem_append.mp hm with h1 | h2
              · exact hfb h h1
              · rw [List.mem_singleton.mp h2, hcf]
                rfl)
            (by
              intro h hm
              rcases List.mem_append.mp hm with h1 | h2
              · exact htb h h1
              · rw [List.mem_singleton.mp h2, hct]
                rfl)
    · rw [if_neg hne] at hrun
      obtain rfl := Option.some.inj hrun
      refine ⟨?_, by rw [hcf]; rfl⟩
      intro h hm
      dsimp only at hm
      rcases List.mem_append.mp hm with h1 | h2
      · exact hfb h h1
      · exact htb h (List.mem_reverse.mp h2)

theorem tree_route_details (d : Hash → Option BlockDetails) (fuel : Nat) (f t : Hash)
    (r : TreeRoute) (h : tree_route d fuel f t = some r) :
    (d f).isSome ∧ (d t).isSome ∧ (d r.ancestor).isSome ∧
      ∀ bk, bk ∈ r.blocks → (d bk).isSome := by
  unfold tree_route at h
  cases hf : d f with
  | none => rw [hf] at h; exact Option.noConfusion h
  | some fd =>
  cases ht : d t with
  | none => rw [hf, ht] at h; exact Option.noConfusion h
  | some td =>
  rw [hf, ht] at h
  dsimp only at h
  cases h1 : treeRouteLevel d fuel [] f fd td.number with
  | none => rw [h1] at h; exact Option.noConfusion h
  | some res1 =>
  rw [h1] at h
  dsimp only at h
  obtain ⟨rl1, cf, fd'⟩ := res1
  cases h2 : treeRouteLevel d fuel [] t td fd'.number with
  | none => rw [h2] at h; exact Option.noConfusion h
  | some res2 =>
  rw [h2] at h
  dsimp only at h
  obtain ⟨rl2, ct, td'⟩ := res2
  by_cases heq : fd'.number = td'.number
  · rw [if_pos heq] at h
    have hd1 := treeRouteLevel_details d fuel [] f fd td.number (rl1, cf, fd') h1 hf
      (by intro hh hm; simp at hm)
    have hd2 := treeRouteLevel_details d fuel [] t td fd'.number (rl2, ct, td') h2 ht
      (by intro hh hm; simp at hm)
    have hj := treeRouteJoin_details d fuel rl1 rl2 cf fd' ct td' r h hd1.2 hd2.2 hd1.1 hd2.1
    exact ⟨rfl, rfl, hj.2, hj.1⟩
  · rw [if_neg heq] at h
    exact Option.noConfusion h

theorem getD_drop_nat (l : List Hash) (k i : Nat) :
    (l.drop k).getD i 0 = l.getD (k + i) 0 := by
  rw [List.getD_eq_getElem?_getD, List.getD_eq_getElem?_getD, List.getElem?_drop]

theorem getD_append_left_nat {l₁ l₂ : List Hash} {n : Nat} (h : n < l₁.length) :
    (l₁ ++ l₂).getD n 0 = l₁.getD n 0 := by
  rw [List.getD_eq_getElem?_getD, List.getD_eq_getElem?_getD, List.getElem?_append,
    if_pos h]

/-- Claim C2: for blocks `from` and `to` whose paths down to their common
ancestor `a` (the first shared node, given by the height-aligned
distinctness hypothesis) all carry block-details records, `tree_route`
returns the route whose blocks are the from-side hashes (from included,
ancestor excluded) followed by the to-side hashes in forward order ending at
`to`, whose ancestor is `a` and whose index is the number of from-side
hashes; and whenever it returns a route at all, every needed details record
(both endpoints, the ancestor and every listed block) was present. -/
theorem tree_route_spec (d : Hash → Option BlockDetails) (base fuel : Nat) (a : Hash)
    (fs ts : List Hash)
    (hf : echainB d base (fs ++ [a]) = true)
    (ht : echainB d base (ts ++ [a]) = true)
    (hdist : ∀ i, i < fs.length → ∀ j, j < ts.length →
      fs.length - i = ts.length - j → fs.getD i 0 ≠ ts.getD j 0)
    (hfuel : fs.length + ts.length + 2 ≤ fuel) :
    tree_route d fuel ((fs ++ [a]).headD 0) ((ts ++ [a]).headD 0) =
      some { blocks := fs ++ ts.reverse, ancestor := a, index := fs.length } ∧
    (∀ f t r, tree_route d fuel f t = some r →
      (d f).isSome ∧ (d t).isSome ∧ (d r.ancestor).isSome ∧
        ∀ bk, bk ∈ r.blocks → (d bk).isSome) := by
  refine ⟨?_, fun f t r h => tree_route_details d fuel f t r h⟩
  obtain ⟨x₁, r₁, hl1⟩ := List.exists_cons_of_ne_nil (l := fs ++ [a]) (by simp)
  obtain ⟨x₂, r₂, hl2⟩ := List.exists_cons_of_ne_nil (l := ts ++ [a]) (by simp)
  have hr1len : r₁.length = fs.length := by
    have := congrArg List.length hl1
    simp at this
    omega
  have hr2len : r₂.length = ts.length := by
    have := congrArg List.length hl2
    simp at this
    omega
  have hc1 : echainB d base (x₁ :: r₁) = true := hl1 ▸ hf
  have hc2 : echainB d base (x₂ :: r₂) = true := hl2 ▸ ht
  obtain ⟨fd, hfd, hfdnum⟩ := echainB_head hc1
  obtain ⟨td, htd, htdnum⟩ := echainB_head hc2
  have hh1 : (fs ++ [a]).headD 0 = x₁ := by rw [hl1]; rfl
  have hh2 : (ts ++ [a]).headD 0 = x₂ := by rw [hl2]; rfl
  rw [hh1, hh2]
  unfold tree_route
  rw [hfd, htd]
  dsimp only
  -- phase 1: level the from-side down to the to-side's height
  obtain ⟨y, ys, dy, hdrop1, hdy, hdynum, hrun1⟩ :=
    treeRouteLevel_run d base r₁ x₁ fd [] td.number fuel hc1 hfd
      (by rw [htdnum]; omega) (by omega)
  rw [hrun1]
  dsimp only
  -- phase 2: level the to-side down to the new from-side height
  obtain ⟨z, zs, dz, hdrop2, hdz, hdznum, hrun2⟩ :=
    treeRouteLevel_run d base r₂ x₂ td [] dy.number fuel hc2 htd
      (by rw [hdynum]; omega) (by omega)
  rw [hrun2]
  dsimp only
  set k₁ := (base + r₁.length) - td.number with hk1
  set k₂ := (base + r₂.length) - dy.number with hk2
  have hys : ys.length + 1 = (x₁ :: r₁).length - k₁ := by
    have h := congrArg List.length hdrop1
    rw [List.length_drop] at h
    simp only [List.length_cons] at h ⊢
    omega
  have hzs : zs.length + 1 = (x₂ :: r₂).length - k₂ := by
    have h := congrArg List.length hdrop2
    rw [List.length_drop] at h
    simp only [List.length_cons] at h ⊢
    omega
  have hk1v : k₁ = fs.length - ts.length := by
    rw [hk1, htdnum, hr1len, hr2len]
    omega
  have hysv : ys.length = fs.length - k₁ := by
    simp only [List.length_cons] at hys
    omega
  have hk2v : k₂ = ts.length - ys.length := by
    rw [hk2, hdynum, hr2len]
    omega
  have hzsv : zs.length = ys.length := by
    simp only [List.length_cons] at hzs
    rw [hk1v] at hysv
    omega
  have hk1le : k₁ ≤ fs.length := by omega
  have hk2le : k₂ ≤ ts.length := by omega
  have heq : dy.number = dz.number := by
    rw [hdynum, hdznum, hzsv]
  rw [if_pos heq]
  -- the lockstep phase
  have hcy : echainB d base (y :: ys) = true := by
    rw [← hdrop1]
    exact echainB_drop hc1 (by simp; omega)
  have hcz : echainB d base (z :: zs) = true := by
    rw [← hdrop2]
    exact echainB_drop hc2 (by simp; omega)
  have hyg : ∀ i, (y :: ys).getD i 0 = fs.getD (k₁ + i) 0 ∨ (k₁ + i ≥ fs.length) := by
    intro i
    by_cases hlt : k₁ + i < fs.length
    · left
      rw [← hdrop1, getD_drop_nat, ← hl1, getD_append_left_nat hlt]
    · right
      omega
  have hzg : ∀ i, (z :: zs).getD i 0 = ts.getD (k₂ + i) 0 ∨ (k₂ + i ≥ ts.length) := by
    intro i
    by_cases hlt : k₂ + i < ts.length
    · left
      rw [← hdrop2, getD_drop_nat, ← hl2, getD_append_left_nat hlt]
    · right
      omega
  have hdist' : ∀ i, i < ys.length → (y :: ys).getD i 0 ≠ (z :: zs).getD i 0 := by
    intro i hi
    rcases hyg i with h1 | h1
    · rcases hzg i with h2 | h2
      · rw [h1, h2]
        exact hdist (k₁ + i) (by omega) (k₂ + i) (by omega) (by omega)
      · omega
    · omega
  have hlast1 : (y :: ys).getLast? = some a := by
    rw [← hdrop1, ← hl1, List.drop_append_of_le_length hk1le, List.getLast?_concat]
  have hlast2 : (z :: zs).getLast? = some a := by
    rw [← hdrop2, ← hl2, List.drop_append_of_le_length hk2le, List.getLast?_concat]
  have hjoin := treeRouteJoin_run d base a ys.length ys zs y z dy dz
    ([] ++ (x₁ :: r₁).take k₁) ([] ++ (x₂ :: r₂).take k₂) fuel hcy hcz rfl hzsv hdy hdz
    hdist' hlast1 hlast2 (by omega)
  rw [hjoin]
  have htake1 : ([] ++ (x₁ :: r₁).take k₁ : List Hash) ++ (y :: ys).dropLast = fs := by
    rw [List.nil_append, ← hdrop1, ← hl1, List.drop_append_of_le_length hk1le,
      List.dropLast_concat, List.take_append_of_le_length hk1le, List.take_append_drop]
  have htake2 : ([] ++ (x₂ :: r₂).take k₂ : List Hash) ++ (z :: zs).dropLast = ts := by
    rw [List.nil_append, ← hdrop2, ← hl2, List.drop_append_of_le_length hk2le,
      List.dropLast_concat, List.take_append_of_le_length hk2le, List.take_append_drop]
  rw [htake1, htake2]

/-- Example details map with a fork at number 2 (children 103 and 104). -/
def exDets : Hash → Option BlockDetails := fun h =>
  if h = 100 then some ⟨0, 1, 0, [101]⟩
  else if h = 101 then some ⟨1, 2, 100, [102]⟩
  else if h = 102 then some ⟨2, 3, 101, [103, 104]⟩
  else if h = 103 then some ⟨3, 4, 102, []⟩
  else if h = 104 then some ⟨3, 4, 102, []⟩
  else none

/-- Witness for C2 across the concrete fork: from 103 to 104 over ancestor 102. -/
theorem tree_route_spec_witness :
    tree_route exDets 4 (([103] ++ [102] : List Hash).headD 0)
        (([104] ++ [102] : List Hash).headD 0) =
      some { blocks := [103] ++ [104].reverse, ancestor := 102, index := [103].length } :=
  (tree_route_spec exDets 2 4 102 [103] [104] (by decide) (by decide) (by decide)
    (by decide)).1

/-! Claim C9: specification-side characterisation of `logs`.  The source walks
each block's receipts and logs in reverse while emitting indices mapped back
to the original positions; the forward-order builders below construct the
entries in original order, and `perBlockRev` is proved equal to the reverse of
the forward construction. -/

/-- Total number of logs in a zipped (logs, transaction hash) list. -/
def totalLogs (l : List (List Nat × Hash)) : Nat :=
  (l.map (fun q => q.1.length)).sum

/-- Forward-order localized entries of one transaction's logs: `j` is the
transaction index, `acc` the number of logs of earlier transactions, `i` the
position of the first remaining log. -/
def fwdLogs (nm : Nat) (hsh txh : Hash) (j acc : Nat) :
    Nat → List Nat → List LocalizedLogEntry
  | _, [] => []
  | i, lg :: rest =>
    { entry := lg, block_hash := hsh, block_number := nm, transaction_hash := txh,
      transaction_index := j, transaction_log_index := i, log_index := acc + i } ::
    fwdLogs nm hsh txh j acc (i + 1) rest

/-- Forward-order localized entries of a block's zipped (logs, transaction
hash) list starting at transaction index `j` with `acc` logs already seen. -/
def fwdBlock (nm : Nat) (hsh : Hash) :
    Nat → Nat → List (List Nat × Hash) → List LocalizedLogEntry
  | _, _, [] => []
  | j, acc, (lgs, txh) :: rest =>
    fwdLogs nm hsh txh j acc 0 lgs ++ fwdBlock nm hsh (j + 1) (acc + lgs.length) rest

theorem totalLogs_nil : totalLogs [] = 0 := rfl

theorem totalLogs_cons (lgs : List Nat) (txh : Hash) (rest : List (List Nat × Hash)) :
    totalLogs ((lgs, txh) :: rest) = lgs.length + totalLogs rest := by
  simp [totalLogs]

theorem totalLogs_reverse (l : List (List Nat × Hash)) :
    totalLogs l.reverse = totalLogs l := by
  simp only [totalLogs, List.map_reverse]
  exact List.sum_reverse _

theorem fwdLogs_length (nm hsh txh j acc : Nat) :
    ∀ (lgs : List Nat) (i : Nat), (fwdLogs nm hsh txh j acc i lgs).length = lgs.length := by
  intro lgs
  induction lgs with
  | nil => intro i; rfl
  | cons lg rest ih => intro i; simp [fwdLogs, ih]

theorem fwdLogs_getElem (nm hsh txh j acc : Nat) :
    ∀ (lgs : List Nat) (i k : Nat), k < lgs.length →
      (fwdLogs nm hsh txh j acc i lgs)[k]? =
      some { entry := lgs.getD k 0, block_hash := hsh, block_number := nm,
             transaction_hash := txh, transaction_index := j,
             transaction_log_index := i + k, log_index := acc + (i + k) } := by
  intro lgs
  induction lgs with
  | nil => intro i k hk; simp at hk
  | cons lg rest ih =>
    intro i k hk
    cases k with
    | zero => simp [fwdLogs]
    | succ k' =>
      have hk' : k' < rest.length := by
        simp only [List.length_cons] at hk; omega
      have harith : i + 1 + k' = i + (k' + 1) := by omega
      simp only [fwdLogs, List.getElem?_cons_succ, List.getD_cons_succ]
      rw [ih (i + 1) k' hk', harith]

theorem fwdBlock_snoc (nm hsh : Nat) :
    ∀ (xs : List (List Nat × Hash)) (lgs : List Nat) (txh : Hash) (j acc : Nat),
      fwdBlock nm hsh j acc (xs ++ [(lgs, txh)]) =
      fwdBlock nm hsh j acc xs ++
        fwdLogs nm hsh txh (j + xs.length) (acc + totalLogs xs) 0 lgs := by
  intro xs
  induction xs with
  | nil => intro lgs txh j acc; simp [fwdBlock, totalLogs]
  | cons hd rest ih =>
    intro lgs txh j acc
    obtain ⟨lgs', txh'⟩ := hd
    simp only [List.cons_append, fwdBlock, List.append_eq, ih, totalLogs_cons,
      List.length_cons, List.append_assoc]
    have h1 : j + 1 + rest.length = j + (rest.length + 1) := by omega
    have h2 : acc + lgs'.length + totalLogs rest = acc + (lgs'.length + totalLogs rest) := by
      omega
    rw [h1, h2]

theorem entriesRev_eq (nm hsh txh t acc : Nat) (lgs : List Nat) :
    (lgs.reverse.enum.map fun q =>
      ({ entry := q.2, block_hash := hsh, block_number := nm,
         transaction_hash := txh, transaction_index := t,
         transaction_log_index := lgs.length - q.1 - 1,
         log_index := acc + lgs.length - q.1 - 1 } : LocalizedLogEntry)) =
    (fwdLogs nm hsh txh t acc 0 lgs).reverse := by
  apply List.ext_getElem?
  intro k
  by_cases hk : k < lgs.length
  · rw [List.getElem?_map, List.getElem?_enum, List.getElem?_reverse hk]
    have hidx : lgs.length - 1 - k < lgs.length := by omega
    rw [List.getElem?_eq_getElem hidx]
    have hflen : (fwdLogs nm hsh txh t acc 0 lgs).length = lgs.length :=
      fwdLogs_length nm hsh txh t acc lgs 0
    rw [List.getElem?_reverse (by rw [hflen]; exact hk), hflen,
      fwdLogs_getElem nm hsh txh t acc lgs 0 (lgs.length - 1 - k) hidx]
    simp only [Option.map_some']
    rw [List.getD_eq_getElem lgs 0 hidx]
    have h1 : 0 + (lgs.length - 1 - k) = lgs.length - k - 1 := by omega
    rw [h1]
    have h2 : acc + lgs.length - k - 1 = acc + (lgs.length - k - 1) := by omega
    rw [h2]
  · push_neg at hk
    rw [List.getElem?_eq_none, List.getElem?_eq_none]
    · rw [List.length_reverse, fwdLogs_length]; exact hk
    · rw [List.length_map, List.enum_length, List.length_reverse]; exact hk

theorem perBlockRev_eq (nm hsh rlen : Nat) :
    ∀ (R : List (List Nat × Hash)) (idx : Nat), idx + R.length = rlen →
      perBlockRev nm hsh rlen idx R (totalLogs R) =
      (fwdBlock nm hsh 0 0 R.reverse).reverse := by
  intro R
  induction R with
  | nil => intro idx h; rfl
  | cons hd rest ih =>
    intro idx h
    obtain ⟨lgs, txh⟩ := hd
    simp only [List.length_cons] at h
    simp only [perBlockRev, totalLogs_cons]
    have hsub : lgs.length + totalLogs rest - lgs.length = totalLogs rest := by omega
    rw [hsub]
    have hc : lgs.length + totalLogs rest = totalLogs rest + lgs.length := Nat.add_comm _ _
    rw [hc]
    have ht : rlen - idx - 1 = rest.length := by omega
    rw [ht]
    rw [List.reverse_cons, fwdBlock_snoc, List.reverse_append]
    simp only [List.length_reverse, totalLogs_reverse, Nat.zero_add]
    rw [ih (idx + 1) (by omega)]
    rw [entriesRev_eq nm hsh txh rest.length (totalLogs rest) lgs]

theorem fwdLogs_mem (nm hsh txh j acc : Nat) :
    ∀ (lgs : List Nat) (i : Nat) (e : LocalizedLogEntry),
      e ∈ fwdLogs nm hsh txh j acc i lgs →
      ∃ k, k < lgs.length ∧
        e = { entry := lgs.getD k 0, block_hash := hsh, block_number := nm,
              transaction_hash := txh, transaction_index := j,
              transaction_log_index := i + k, log_index := acc + (i + k) } := by
  intro lgs
  induction lgs with
  | nil => intro i e he; simp [fwdLogs] at he
  | cons lg rest ih =>
    intro i e he
    simp only [fwdLogs, List.mem_cons] at he
    rcases he with he | he
    · refine ⟨0, by simp, ?_⟩
      rw [he]; simp
    · obtain ⟨k, hk, hke⟩ := ih (i + 1) e he
      refine ⟨k + 1, by simp only [List.length_cons]; omega, ?_⟩
      rw [hke]
      have h1 : i + 1 + k = i + (k + 1) := by omega
      rw [h1]; simp [List.getD_cons_succ]

theorem fwdBlock_mem (nm hsh : Nat) :
    ∀ (zipped : List (List Nat × Hash)) (j acc : Nat) (e : LocalizedLogEntry),
      e ∈ fwdBlock nm hsh j acc zipped →
      ∃ p lgs txh i, zipped[p]? = some (lgs, txh) ∧ i < lgs.length ∧
        e = { entry := lgs.getD i 0, block_hash := hsh, block_number := nm,
              transaction_hash := txh, transaction_index := j + p,
              transaction_log_index := i,
              log_index := acc + totalLogs (zipped.take p) + i } := by
  intro zipped
  induction zipped with
  | nil => intro j acc e he; simp [fwdBlock] at he
  | cons hd rest ih =>
    intro j acc e he
    obtain ⟨lgs, txh⟩ := hd
    simp only [fwdBlock, List.mem_append] at he
    rcases he with he | he
    · obtain ⟨k, hk, hke⟩ := fwdLogs_mem nm hsh txh j acc lgs 0 e he
      refine ⟨0, lgs, txh, k, by simp, hk, ?_⟩
      rw [hke]
      simp [totalLogs]
    · obtain ⟨p, lgs', txh', i, hp, hi, hke⟩ := ih (j + 1) (acc + lgs.length) e he
      refine ⟨p + 1, lgs', txh', i, by simpa using hp, hi, ?_⟩
      rw [hke]
      have h1 : j + 1 + p = j + (p + 1) := by omega
      have h2 : acc + lgs.length + totalLogs (rest.take p) =
          acc + totalLogs (((lgs, txh) :: rest).take (p + 1)) := by
        rw [List.take_succ_cons, totalLogs_cons]; omega
      rw [h1, h2]

theorem zip_take_eq {A B : Type} :
    ∀ (as : List A) (bs : List B) (p : Nat),
      (as.zip bs).take p = (as.take p).zip (bs.take p) := by
  intro as
  induction as with
  | nil => intro bs p; simp
  | cons a as' ih =>
    intro bs p
    cases bs with
    | nil => simp
    | cons b bs' =>
      cases p with
      | zero => simp
      | succ p' => simp [List.zip_cons_cons, List.take_succ_cons, ih]

theorem totalLogs_zip :
    ∀ (as : List (List Nat)) (bs : List Hash), as.length ≤ bs.length →
      totalLogs (as.zip bs) = (as.map List.length).sum := by
  intro as
  induction as with
  | nil => intro bs h; rfl
  | cons a as' ih =>
    intro bs h
    cases bs with
    | nil => simp at h
    | cons b bs' =>
      simp only [List.zip_cons_cons, totalLogs_cons, List.map_cons, List.sum_cons]
      rw [ih bs' (by simp only [List.length_cons] at h; omega)]

theorem totalLogs_zip_take (rs : List Receipt) (bt : List Hash) (p : Nat)
    (hlen : rs.length = bt.length) :
    totalLogs (((rs.map (fun r => r.logs)).zip bt).take p) =
    ((rs.take p).map (fun r => r.logs.length)).sum := by
  rw [zip_take_eq, totalLogs_zip _ _ (by simp [List.length_take, List.length_map, hlen])]
  rw [← List.map_take, List.map_map]
  rfl

/-- The indices of a returned log entry are the original positions: the
receipts, body and logs of the entry's block contain the entry at exactly
the recorded transaction index, transaction log index and block-wide log
index, and the entry passed the predicate. -/
def entryOK (s : ChainState) (pred : Nat → Bool) (e : LocalizedLogEntry) : Prop :=
  pred e.entry = true ∧
  s.hashes e.block_number = some e.block_hash ∧
  ∃ rs blk r,
    s.receipts e.block_hash = some rs ∧
    s.blocks e.block_hash = some blk ∧
    rs[e.transaction_index]? = some r ∧
    blk.transactions[e.transaction_index]? = some e.transaction_hash ∧
    r.logs[e.transaction_log_index]? = some e.entry ∧
    e.log_index = ((rs.take e.transaction_index).map (fun q => q.logs.length)).sum
      + e.transaction_log_index

theorem mem_of_mem_takeLim {A : Type} (limit : Option Nat) (l : List A) (e : A)
    (he : e ∈ takeLim limit l) : e ∈ l := by
  cases limit with
  | none => exact he
  | some m => exact (List.take_sublist m l).subset he

theorem processBlock_mem (s : ChainState) (pred : Nat → Bool) (limit : Option Nat)
    (n : Nat) (l : List LocalizedLogEntry) (e : LocalizedLogEntry)
    (hpb : processBlock s pred limit n = some l) (he : e ∈ l) :
    e.block_number = n ∧ entryOK s pred e := by
  unfold processBlock at hpb
  cases hh : s.hashes n with
  | none =>
    rw [hh] at hpb; dsimp only at hpb
    cases hpb; simp at he
  | some hash =>
    rw [hh] at hpb; dsimp only at hpb
    cases hrc : s.receipts hash with
    | none => rw [hrc] at hpb; dsimp only at hpb; cases hpb; simp at he
    | some rs =>
      rw [hrc] at hpb; dsimp only at hpb
      cases hbk : s.blocks hash with
      | none => rw [hbk] at hpb; dsimp only at hpb; cases hpb; simp at he
      | some blk =>
        rw [hbk] at hpb; dsimp only at hpb
        by_cases hlen : rs.length = blk.transactions.length
        · rw [if_pos hlen] at hpb
          injection hpb with hpb
          subst hpb
          have hef := mem_of_mem_takeLim limit _ e he
          rw [List.mem_filter] at hef
          obtain ⟨hmem, hpred⟩ := hef
          have hzl : ((rs.map fun r => r.logs).zip blk.transactions).length = rs.length := by
            simp [List.length_zip, List.length_map, hlen]
          have htotal : (rs.map fun r => r.logs.length).sum =
              totalLogs ((rs.map fun r => r.logs).zip blk.transactions).reverse := by
            rw [totalLogs_reverse, totalLogs_zip _ _ (by rw [List.length_map, hlen])]
            rw [List.map_map]
            rfl
          rw [htotal] at hmem
          rw [perBlockRev_eq n hash rs.length _ 0
            (by rw [List.length_reverse, hzl]; omega)] at hmem
          rw [List.reverse_reverse, List.mem_reverse] at hmem
          obtain ⟨p, lgs, txh, i, hpz, hi, he'⟩ := fwdBlock_mem n hash _ 0 0 e hmem
          simp only [Nat.zero_add] at he'
          rw [List.zip, List.getElem?_zipWith] at hpz
          have hmap : Option.map (fun r => r.logs) rs[p]? = (rs.map fun r => r.logs)[p]? :=
            (List.getElem?_map _ _ _).symm
          cases hrp : rs[p]? with
          | none =>
            rw [hrp] at hmap
            rw [← hmap] at hpz
            simp at hpz
          | some r =>
            rw [hrp] at hmap
            rw [← hmap] at hpz
            cases hb : blk.transactions[p]? with
            | none => rw [hb] at hpz; simp at hpz
            | some th =>
              rw [hb] at hpz
              simp only [Option.map_some'] at hpz
              injection hpz with hpz2
              rw [Prod.mk.injEq] at hpz2
              obtain ⟨hlgs, hth⟩ := hpz2
              subst he'
              refine ⟨rfl, hpred, hh, rs, blk, r, hrc, hbk, hrp, hth ▸ hb, ?_, ?_⟩
              · rw [← hlgs] at hi ⊢
                rw [List.getElem?_eq_getElem hi, List.getD_eq_getElem r.logs 0 hi]
              · rw [totalLogs_zip_take rs blk.transactions p hlen]
        · rw [if_neg hlen] at hpb
          cases hpb

theorem mapM_processBlock_rel (s : ChainState) (pred : Nat → Bool) (limit : Option Nat) :
    ∀ (bs : List Nat) (ls : List (List LocalizedLogEntry)),
      bs.mapM (processBlock s pred limit) = some ls →
      (∀ e ∈ ls.flatten, e.block_number ∈ bs ∧ entryOK s pred e) ∧
      (bs.Pairwise (fun a b => b ≤ a) →
        ls.flatten.Pairwise (fun x y => y.block_number ≤ x.block_number)) := by
  intro bs
  induction bs with
  | nil =>
    intro ls h
    rw [List.mapM_nil] at h
    cases h
    exact ⟨by intro e he; simp at he, by intro hp; simp⟩
  | cons b bs' ih =>
    intro ls h
    rw [List.mapM_cons] at h
    cases hpb : processBlock s pred limit b with
    | none => rw [hpb] at h; simp at h
    | some l =>
      rw [hpb] at h
      cases hmm : List.mapM (processBlock s pred limit) bs' with
      | none => rw [hmm] at h; simp at h
      | some ls' =>
        rw [hmm] at h
        simp only [Option.pure_def, Option.some_bind] at h
        injection h with h
        subst h
        obtain ⟨ihmem, ihpair⟩ := ih ls' hmm
        constructor
        · intro e hef
          rw [List.flatten_cons, List.mem_append] at hef
          rcases hef with hel | hef
          · obtain ⟨hbn, hok⟩ := processBlock_mem s pred limit b l e hpb hel
            exact ⟨by rw [hbn]; exact List.mem_cons_self _ _, hok⟩
          · obtain ⟨hbn, hok⟩ := ihmem e hef
            exact ⟨List.mem_cons_of_mem _ hbn, hok⟩
        · intro hp
          rw [List.pairwise_cons] at hp
          obtain ⟨hble, hp'⟩ := hp
          rw [List.flatten_cons, List.pairwise_append]
          refine ⟨?_, ihpair hp', ?_⟩
          · apply List.pairwise_of_forall_mem_list
            intro x hx y hy
            have hxb := (processBlock_mem s pred limit b l x hpb hx).1
            have hyb := (processBlock_mem s pred limit b l y hpb hy).1
            rw [hxb, hyb]
          · intro x hx y hy
            have hxb := (processBlock_mem s pred limit b l x hpb hx).1
            obtain ⟨hyb, _⟩ := ihmem y hy
            rw [hxb]
            exact hble _ hyb

theorem sortDesc_pairwise (bs : List Nat) :
    (sortDesc bs).Pairwise (fun a b => b ≤ a) := by
  have h := @List.sorted_mergeSort Nat (fun a b => decide (b ≤ a))
    (fun a b c hab hbc => by
      simp only [decide_eq_true_eq] at hab hbc ⊢; omega)
    (fun a b => by
      simp only [Bool.or_eq_true, decide_eq_true_eq]; omega) bs
  unfold sortDesc
  exact h.imp (fun hab => by simpa using hab)

theorem mem_sortDesc (x : Nat) (bs : List Nat) : x ∈ sortDesc bs ↔ x ∈ bs :=
  (List.mergeSort_perm bs _).mem_iff

/-- Claim C9: for every list of block numbers, predicate and limit, `logs`
returns at most `limit` localized entries; the blocks are processed in
descending number order and the stream reversed at the end, so the returned
entries are ordered by ascending block number and each belongs to a requested
block; and each returned entry's `transaction_index`, `transaction_log_index`
and `log_index` are the transaction's and log's original (non-reversed)
positions within its block as recorded in the stored receipts and body, with
the entry passing the predicate. -/
theorem logs_spec (s : ChainState) (blocks : List Nat) (pred : Nat → Bool)
    (limit : Nat) (res : List LocalizedLogEntry)
    (h : logs s blocks pred (some limit) = some res) :
    res.length ≤ limit ∧
    res.Pairwise (fun a b => a.block_number ≤ b.block_number) ∧
    ∀ e ∈ res, e.block_number ∈ blocks ∧ entryOK s pred e := by
  unfold logs at h
  cases hm : (sortDesc blocks).mapM (processBlock s pred (some limit)) with
  | none => rw [hm] at h; cases h
  | some lists =>
    rw [hm] at h; dsimp only at h
    injection h with h
    subst h
    obtain ⟨hmem, hpair⟩ :=
      mapM_processBlock_rel s pred (some limit) (sortDesc blocks) lists hm
    refine ⟨?_, ?_, ?_⟩
    · simp only [takeLim, List.length_reverse, List.length_take]
      omega
    · rw [List.pairwise_reverse]
      exact List.Pairwise.sublist (List.take_sublist _ _) (hpair (sortDesc_pairwise blocks))
    · intro e hee
      rw [List.mem_reverse] at hee
      have hef := mem_of_mem_takeLim (some limit) _ e hee
      obtain ⟨hbn, hok⟩ := hmem e hef
      exact ⟨(mem_sortDesc _ _).mp hbn, hok⟩

/-- Example block for the `logs` witness: number 7 with two transactions. -/
def exB9 : Block :=
  { hash := 121, number := 7, parent_hash := 100, difficulty := 1, timestamp := 9,
    log_bloom := 0, transactions := [91, 92] }

/-- Example state for the `logs` witness: block 121 at number 7 whose first
transaction emits logs 5 and 6 and whose second emits log 7. -/
def exS9 : ChainState :=
  { blocks := fun h => if h = 121 then some exB9 else none,
    details := fun _ => none,
    hashes := fun n => if n = 7 then some 121 else none,
    txAddrs := fun _ => none,
    receipts := fun h => if h = 121 then some [⟨[5, 6]⟩, ⟨[7]⟩] else none,
    blooms := fun _ => none,
    best := { hash := 100, number := 0, total_difficulty := 1, timestamp := 5, block := exG },
    bestAncient := none }

/-- Witness for C9: two entries survive the limit of 2; they come back in
ascending block order with the original in-block positions. -/
theorem logs_spec_witness :
    ∃ res, logs exS9 [7] (fun x => decide (1 ≤ x)) (some 2) = some res ∧
      (res.length ≤ 2 ∧
        res.Pairwise (fun a b => a.block_number ≤ b.block_number) ∧
        ∀ e ∈ res, e.block_number ∈ [7] ∧ entryOK exS9 (fun x => decide (1 ≤ x)) e) := by
  have hsort : sortDesc [7] = [7] := by
    unfold sortDesc
    exact List.mergeSort_singleton 7
  have hlog : logs exS9 [7] (fun x => decide (1 ≤ x)) (some 2) =
      some [⟨6, 121, 7, 91, 0, 1, 1⟩, ⟨7, 121, 7, 92, 1, 0, 2⟩] := by
    unfold logs
    rw [hsort]
    rfl
  exact ⟨_, hlog, logs_spec exS9 [7] _ 2 _ hlog⟩
